import Mathlib

/-!
Verification of the Go package `email` (TSRAppLabs/email, `email.go`)

A shallow embedding of the message builder and MIME serializer.

Modelling conventions
* A Go `string` / `[]byte` is a list of bytes (`Str`); string literals of the
  source are written with `lit`.
* A Go `map[string]V` is a list of entries with pairwise distinct keys
  (`GoMap V`); `m[k] = v` is `mapSet`.  The order in which `range` visits the
  entries is not fixed by the language, so every loop over a map takes a
  schedule (`Sched`) that selects the order (`rangeOrder`): every schedule
  gives a permutation of the entries and every permutation is given by some
  schedule.
* A header map is a reference: `Attachment.Headers` is `none` for the nil map
  and `some r` for the map stored at address `r` of the `Heap`.  The
  serializer writes its fixed headers through that reference.
* `Message.Attachments` is `none` for the nil map (the zero value of the
  struct) and `some mp` once `make` has run, as in `newMessage`.
* The fields `To`, `Cc` and `Bcc` of a `Message` are the contents of its three
  slices.  Where a slice is appended to, in `Message.Tolist`, the slices
  themselves are given: their headers (`Recipients`: backing array, offset,
  length, capacity) and the backing arrays (`Arrays`); `append` writes into
  the backing array while the capacity allows and moves to a new array
  otherwise (`goAppend`).
* `ioutil.ReadAll` is modelled by its result: the bytes read and the error.
* `time.Now().Format(time.RFC822)` is the parameter `date` of `Message.Bytes`.
* `os.Open` is a function from paths to readers or errors (`FileSystem`), and
  the empty header map that `Attach` and `Inline` make is the map at a fresh
  address of the heap.
* `smtp.SendMail` is a parameter of `Send`: a function from the state of the
  transport and the arguments of the call to an error value and the next state.
-/

set_option maxRecDepth 100000

namespace Email

/-! ## Bytes, strings, maps -/

abbrev Byte := Fin 256

abbrev Str := List Byte

/-- A string literal of the source (ASCII) as a byte string. -/
def lit (s : String) : Str := s.toList.map (fun c => Fin.ofNat c.toNat)

/-- Go map write on the list of entries: replaces the entry of an existing key,
adds one otherwise. -/
def setEntry {V : Type} : List (Str × V) → Str → V → List (Str × V)
  | [], k, v => [(k, v)]
  | (k', v') :: rest, k, v =>
    if k' = k then (k, v) :: rest else (k', v') :: setEntry rest k v

/-- Go map read on the list of entries. -/
def getEntry {V : Type} : List (Str × V) → Str → Option V
  | [], _ => none
  | (k', v) :: rest, k => if k' = k then some v else getEntry rest k

/-- Contents of a Go map with string keys: entries with pairwise distinct keys. -/
structure GoMap (V : Type) where
  entries : List (Str × V)
  nodup : (entries.map Prod.fst).Nodup

instance {V : Type} [DecidableEq V] : DecidableEq (GoMap V) := fun a b =>
  match a, b with
  | ⟨ea, _⟩, ⟨eb, _⟩ =>
    if h : ea = eb then isTrue (by subst h; rfl)
    else isFalse (fun hab => h (congrArg GoMap.entries hab))

/-- The empty map, make(map[string]V). -/
def emptyMap {V : Type} : GoMap V := ⟨[], List.nodup_nil⟩

/-- Go map read, v, ok := m[k]. -/
def mapGet {V : Type} (m : GoMap V) (k : Str) : Option V := getEntry m.entries k

/-- Go map write, m[k] = v. -/
def mapSet {V : Type} (m : GoMap V) (k : Str) (v : V) : GoMap V :=
  ⟨setEntry m.entries k v, by
    have mem : ∀ (l : List (Str × V)) (x : Str),
        x ∈ (setEntry l k v).map Prod.fst → x = k ∨ x ∈ l.map Prod.fst := by
      intro l x
      induction l with
      | nil => simp [setEntry]
      | cons e rest ih =>
        obtain ⟨k', v'⟩ := e
        by_cases h : k' = k
        · subst h
          simp [setEntry]
        · simp only [setEntry, if_neg h, List.map_cons, List.mem_cons]
          rintro (hx | hx)
          · exact Or.inr (Or.inl hx)
          · exact (ih hx).imp id Or.inr
    have nd : ∀ l : List (Str × V), (l.map Prod.fst).Nodup →
        ((setEntry l k v).map Prod.fst).Nodup := by
      intro l
      induction l with
      | nil => simp [setEntry]
      | cons e rest ih =>
        obtain ⟨k', v'⟩ := e
        intro h
        rw [List.map_cons, List.nodup_cons] at h
        by_cases hk : k' = k
        · subst hk
          simp only [setEntry, if_true, List.map_cons, List.nodup_cons]
          exact h
        · simp only [setEntry, if_neg hk, List.map_cons, List.nodup_cons]
          exact ⟨fun hx => (mem rest k' hx).elim hk h.1, ih h.2⟩
    exact nd m.entries m.nodup⟩

/-- Number of entries, len(m). -/
def mapLen {V : Type} (m : GoMap V) : Nat := m.entries.length

/-- A schedule chooses the order in which one range loop visits a map. -/
abbrev Sched := List Nat

/-- Insert x at position i (at the end when i is too large). -/
def insertAt {α : Type} : Nat → α → List α → List α
  | _, x, [] => [x]
  | 0, x, y :: ys => x :: y :: ys
  | i + 1, x, y :: ys => y :: insertAt i x ys

/-- The order in which a range loop with schedule ρ visits the entries. -/
def rangeOrder {α : Type} : Sched → List α → List α
  | _, [] => []
  | ρ, x :: xs => insertAt (ρ.headD 0) x (rangeOrder ρ.tail xs)

/-- The heap of header maps: the contents of the map at each address. -/
abbrev Heap := Nat → GoMap Str

/-- Write the contents of the map at address r. -/
def heapSet (hp : Heap) (r : Nat) (c : GoMap Str) : Heap :=
  fun r' => if r' = r then c else hp r'

/-- strings.Join. -/
def join (sep : Str) : List Str → Str
  | [] => []
  | [a] => a
  | a :: b :: rest => a ++ sep ++ join sep (b :: rest)

/-! ## encoding/base64, StdEncoding -/

/-- The standard base64 alphabet (RFC 4648, section 4). -/
def encodeStd : Str :=
  lit "ABCDEFGHIJKLMNOPQRSTUVWXYZabcdefghijklmnopqrstuvwxyz0123456789+/"

/-- The padding character. -/
def padChar : Byte := 61

/-- Alphabet lookup, enc.encode[i]. -/
def encChar (i : Nat) : Byte := encodeStd.getD i 0

/-- base64.StdEncoding.EncodedLen. -/
def EncodedLen (n : Nat) : Nat := (n + 2) / 3 * 4

/-- base64.StdEncoding.Encode: the bytes written to the destination.  Full
groups of three bytes give four characters; a remainder of one or two bytes
gives two or three characters and padding. -/
def b64Encode : Str → Str
  | a :: b :: c :: rest =>
    let val := a.val * 65536 + b.val * 256 + c.val
    encChar (val / 262144 % 64) :: encChar (val / 4096 % 64) ::
      encChar (val / 64 % 64) :: encChar (val % 64) :: b64Encode rest
  | [a, b] =>
    let val := a.val * 65536 + b.val * 256
    [encChar (val / 262144 % 64), encChar (val / 4096 % 64), encChar (val / 64 % 64), padChar]
  | [a] =>
    let val := a.val * 65536
    [encChar (val / 262144 % 64), encChar (val / 4096 % 64), padChar, padChar]
  | [] => []

/-- Value of a base64 character in the standard alphabet. -/
def decChar (c : Byte) : Option Nat :=
  let i := encodeStd.indexOf c
  if i < 64 then some i else none

/-- Standard padded base64 decoding, written from RFC 4648: groups of four
characters, padding allowed only in the last group. -/
def b64Decode : Str → Option Str
  | [] => some []
  | c0 :: c1 :: c2 :: c3 :: rest =>
    match decChar c0, decChar c1 with
    | some i0, some i1 =>
      if c2 = padChar then
        if c3 = padChar ∧ rest = [] then
          some [Fin.ofNat ((i0 * 262144 + i1 * 4096) / 65536 % 256)]
        else none
      else
        match decChar c2 with
        | none => none
        | some i2 =>
          if c3 = padChar then
            if rest = [] then
              let val := i0 * 262144 + i1 * 4096 + i2 * 64
              some [Fin.ofNat (val / 65536 % 256), Fin.ofNat (val / 256 % 256)]
            else none
          else
            match decChar c3 with
            | none => none
            | some i3 =>
              let val := i0 * 262144 + i1 * 4096 + i2 * 64 + i3
              match b64Decode rest with
              | none => none
              | some tl =>
                some (Fin.ofNat (val / 65536 % 256) :: Fin.ofNat (val / 256 % 256) ::
                  Fin.ofNat (val % 256) :: tl)
    | _, _ => none
  | _ => none

/-! ## The data model -/

/-- The struct Attachment.  Headers is a map reference: none is the nil map. -/
structure Attachment where
  Filename : Str
  Data : Str
  Inline : Bool
  Headers : Option Nat
deriving DecidableEq

/-- The struct Message.  Attachments is none for the nil map.  The map holds
pointers to attachments that attach allocates and nothing else in the package
writes through, so the entries are kept as values. -/
structure Message where
  From : Str
  To : List Str
  Cc : List Str
  Bcc : List Str
  Subject : Str
  Body : Str
  BodyContentType : Str
  Attachments : Option (GoMap Attachment)
deriving DecidableEq

/-- An error value of the input/output layer. -/
abbrev IOError := Nat

/-- An io.Reader, by what ioutil.ReadAll gets from it: the bytes read before
the end of the input or the failure, and the error, if any. -/
structure Reader where
  data : Str
  err : Option IOError
deriving DecidableEq

/-- ioutil.ReadAll. -/
def ReadAll (r : Reader) : Str × Option IOError := (r.data, r.err)

/-- How a call of a method with a pointer receiver ends: it returns its error
value (none is nil) and leaves the receiver in a state, or it panics. -/
inductive Outcome where
  | returned (err : Option IOError) (m : Message)
  | panicked
deriving DecidableEq

/-- len(m.Attachments); the length of the nil map is 0. -/
def Message.numAttachments (m : Message) : Nat :=
  match m.Attachments with
  | none => 0
  | some mp => mapLen mp

/-- The entries of m.Attachments; a nil map has none. -/
def Message.entries (m : Message) : List (Str × Attachment) :=
  match m.Attachments with
  | none => []
  | some mp => mp.entries

/-! ## The message builder -/

/-- Message.attach (email.go, lines 36-51).  A write to a nil map panics. -/
def Message.attach (m : Message) (reader : Reader) (filename : Str) (inline : Bool)
    (headers : Option Nat) : Outcome :=
  match ReadAll reader with
  | (_, some err) => Outcome.returned (some err) m
  | (data, none) =>
    match m.Attachments with
    | none => Outcome.panicked
    | some mp =>
      Outcome.returned none
        { m with Attachments := some (mapSet mp filename
            { Filename := filename, Data := data, Inline := inline, Headers := headers }) }

/-- Message.AttachReader. -/
def Message.AttachReader (m : Message) (reader : Reader) (filename : Str)
    (headers : Option Nat) : Outcome :=
  m.attach reader filename false headers

/-- Message.InlineReader. -/
def Message.InlineReader (m : Message) (reader : Reader) (filename : Str)
    (headers : Option Nat) : Outcome :=
  m.attach reader filename true headers

/-- The file system, by what os.Open gives for a path: a reader or an error. -/
abbrev FileSystem := Str → Except IOError Reader

/-- filepath.Split with the slash as separator: the path is cut right after
its last separator, into the directory and the file name; without separator
the directory is empty. -/
def Split (path : Str) : Str × Str :=
  let file := (path.reverse.takeWhile (fun c => c != 47)).reverse
  (path.take (path.length - file.length), file)

/-- Message.Attach (email.go, lines 53-64): the outcome and the heap
afterwards.  fs is os.Open and fresh the address of the empty header map that
the call makes for the attachment. -/
def Message.Attach (m : Message) (fs : FileSystem) (hp : Heap) (fresh : Nat) (file : Str) :
    Outcome × Heap :=
  match fs file with
  | Except.error err => (Outcome.returned (some err) m, hp)
  | Except.ok fin =>
    let filename := (Split file).2
    (m.attach fin filename false (some fresh), heapSet hp fresh emptyMap)

/-- Message.Inline (email.go, lines 70-81). -/
def Message.Inline (m : Message) (fs : FileSystem) (hp : Heap) (fresh : Nat) (file : Str) :
    Outcome × Heap :=
  match fs file with
  | Except.error err => (Outcome.returned (some err) m, hp)
  | Except.ok fin =>
    let filename := (Split file).2
    (m.attach fin filename true (some fresh), heapSet hp fresh emptyMap)

/-- The function newMessage: the other fields keep their zero values. -/
def newMessage (subject body bodyContentType : Str) : Message :=
  { From := [], To := [], Cc := [], Bcc := [], Subject := subject, Body := body,
    BodyContentType := bodyContentType, Attachments := some emptyMap }

/-- NewMessage. -/
def NewMessage (subject body : Str) : Message := newMessage subject body (lit "text/plain")

/-- NewHTMLMessage. -/
def NewHTMLMessage (subject body : Str) : Message := newMessage subject body (lit "text/html")

/-! ## Slices of strings and Tolist -/

/-- A Go slice of strings: the address of its backing array, the offset of its
first element in that array, its length and its capacity. -/
structure Slice where
  arr : Nat
  off : Nat
  len : Nat
  cap : Nat
deriving DecidableEq

/-- The string arrays of the program: the cells of the array at each address. -/
abbrev Arrays := Nat → List Str

/-- The elements of a slice. -/
def Slice.read (s : Slice) (mem : Arrays) : List Str :=
  ((mem s.arr).drop s.off).take s.len

/-- Element i of a slice, s[i]. -/
def Slice.elem (s : Slice) (mem : Arrays) (i : Nat) : Str :=
  (mem s.arr).getD (s.off + i) []

/-- Assignment to cell i of the array at address arr. -/
def storeCell (mem : Arrays) (arr i : Nat) (x : Str) : Arrays :=
  fun a => if a = arr then (mem a).set i x else mem a

/-- The built-in append(s, x) of Go: the slice returned, the arrays
afterwards and the address of the next new array.  With spare capacity the
element is written into the backing array of s, right after its last element;
without, the elements and x go to a new array at the address fresh, of twice
the capacity (the amount does not matter for what follows). -/
def goAppend (mem : Arrays) (fresh : Nat) (s : Slice) (x : Str) : Slice × Arrays × Nat :=
  if s.len < s.cap then
    ({ s with len := s.len + 1 }, storeCell mem s.arr (s.off + s.len) x, fresh)
  else
    let newcap := if s.cap = 0 then 1 else 2 * s.cap
    ({ arr := fresh, off := 0, len := s.len + 1, cap := newcap },
      fun a => if a = fresh then
          s.read mem ++ [x] ++ List.replicate (newcap - (s.len + 1)) []
        else mem a,
      fresh + 1)

/-- The slice headers in the fields To, Cc and Bcc of a Message. -/
structure Recipients where
  To : Slice
  Cc : Slice
  Bcc : Slice
deriving DecidableEq

/-- The message with the contents that its three slices have in the arrays. -/
def Message.load (m : Message) (rc : Recipients) (mem : Arrays) : Message :=
  { m with To := rc.To.read mem, Cc := rc.Cc.read mem, Bcc := rc.Bcc.read mem }

/-- The loop for _, x := range src { tolist = append(tolist, x) }, with n
elements left from element i on: the length of src is taken once, and every
element is read when its turn comes. -/
def appendRange (src : Slice) : Nat → Nat → Slice × Arrays × Nat → Slice × Arrays × Nat
  | 0, _, st => st
  | n + 1, i, (tolist, mem, fresh) =>
    appendRange src n (i + 1) (goAppend mem fresh tolist (src.elem mem i))

/-- Message.Tolist (email.go, lines 105-118): the list returned, the message
afterwards and the arrays afterwards.  tolist starts as the slice m.To itself,
so the appends write into the backing array of To while its capacity allows. -/
def Message.Tolist (m : Message) (rc : Recipients) (mem : Arrays) (fresh : Nat) :
    List Str × Message × Arrays :=
  let tolist := rc.To
  let st := appendRange rc.Cc rc.Cc.len 0 (tolist, mem, fresh)
  let st := appendRange rc.Bcc rc.Bcc.len 0 st
  (st.1.read st.2.1, m.load rc st.2.1, st.2.1)

/-! ## The serializer -/

/-- The boundary constant of Message.Bytes. -/
def boundary : Str := lit "f46d043c813270fc6b04c2d223da"

/-- The header map an attachment is serialized with: the map behind the
reference, or a new empty map when the reference is nil. -/
def Attachment.startHeaders (a : Attachment) (hp : Heap) : GoMap Str :=
  match a.Headers with
  | none => emptyMap
  | some r => hp r

/-- The header map after the assignments of the fixed headers
(email.go, lines 168-175). -/
def Attachment.finalHeaders (a : Attachment) (hp : Heap) : GoMap Str :=
  let hs := a.startHeaders hp
  if a.Inline then
    let hs := mapSet hs (lit "Content-Type") (lit "message/rfc822")
    mapSet hs (lit "Content-Disposition") (lit "inline; filename=\"" ++ a.Filename ++ lit "\"")
  else
    let hs := mapSet hs (lit "Content-Type") (lit "application/octet-stream")
    let hs := mapSet hs (lit "Content-Tranfer-Encoding") (lit "base64")
    mapSet hs (lit "Content-Disposition")
      (lit "attachment; filename=\"" ++ a.Filename ++ lit "\"")

/-- One header line, fmt.Sprintf("%v: %v\n", key, val). -/
def headerLine (e : Str × Str) : Str := e.1 ++ lit ": " ++ e.2 ++ lit "\n"

/-- The header lines of an attachment, in the order of the schedule. -/
def Attachment.headerBlock (a : Attachment) (hp : Heap) (ρ : Sched) : Str :=
  ((rangeOrder ρ (a.finalHeaders hp).entries).map headerLine).flatten

/-- The body bytes written after the blank line. -/
def Attachment.body (a : Attachment) : Str :=
  if a.Inline then a.Data else b64Encode a.Data

/-- Attachment.Bytes (email.go, lines 161-192): the bytes returned and the heap
afterwards.  The receiver is a copy, so a map made for a nil reference is
lost on return; the fixed headers written to a map that is not nil stay. -/
def Attachment.Bytes (a : Attachment) (hp : Heap) (ρ : Sched) : Str × Heap :=
  let buf : Str := []
  let buf := buf ++ a.headerBlock hp ρ
  let buf := buf ++ lit "\n"
  let buf := buf ++ a.body
  let hp := match a.Headers with
    | none => hp
    | some r => heapSet hp r (a.finalHeaders hp)
  (buf, hp)

/-- The loop over the attachments of Message.Bytes (email.go, lines 149-153):
the attachments in the order visited, the header schedules of the visits, and
the buffer and heap so far. -/
def writeParts : List Attachment → List Sched → Str × Heap → Str × Heap
  | [], _, st => st
  | a :: rest, η, (buf, hp) =>
    let buf := buf ++ (lit "\n\n--" ++ boundary ++ lit "\n")
    let r := a.Bytes hp (η.headD [])
    let buf := buf ++ r.1
    let buf := buf ++ (lit "\n--" ++ boundary)
    writeParts rest η.tail (buf, r.2)

/-- The envelope header lines of Message.Bytes (email.go, lines 124-135). -/
def Message.envelope (m : Message) (date : Str) : Str :=
  let buf : Str := []
  let buf := buf ++ (lit "From: " ++ m.From ++ lit "\n")
  let buf := buf ++ (lit "Date: " ++ date ++ lit "\n")
  let buf := buf ++ (lit "To: " ++ join (lit ",") m.To ++ lit "\n")
  let buf := if m.Cc.length > 0 then buf ++ (lit "Cc: " ++ join (lit ",") m.Cc ++ lit "\n")
    else buf
  let buf := buf ++ (lit "Subject: " ++ m.Subject ++ lit "\n")
  let buf := buf ++ lit "MIME-Version: 1.0\n"
  buf

/-- Message.Bytes (email.go, lines 121-159): the bytes returned and the heap
afterwards.  date is the formatted current time, ρ the schedule of the loop
over the attachments and η the header schedules of the attachments visited. -/
def Message.Bytes (m : Message) (hp : Heap) (date : Str) (ρ : Sched) (η : List Sched) :
    Str × Heap :=
  let buf := m.envelope date
  let buf := if m.numAttachments > 0 then
      (buf ++ (lit "Content-Type: multipart/mixed; boundary=" ++ boundary ++ lit "\n"))
        ++ (lit "--" ++ boundary ++ lit "\n")
    else buf
  let buf := buf ++ (lit "Content-Type: " ++ m.BodyContentType ++ lit "; charset=utf-8\n\n")
  let buf := buf ++ m.Body
  let buf := buf ++ lit "\n"
  if m.numAttachments > 0 then
    let st := writeParts ((rangeOrder ρ m.entries).map (fun e => e.2)) η (buf, hp)
    (st.1 ++ lit "--", st.2)
  else (buf, hp)

/-- The arguments of a call of smtp.SendMail. -/
structure MailCall (A : Type) where
  addr : Str
  auth : A
  sender : Str
  recipients : List Str
  msg : Str

/-- Send (email.go, lines 194-196): the result and the state of the transport
after the call, the heap and the arrays.  SendMail is the transport: from its
state and the arguments of a call it gives its error value (none is nil) and
its next state.  The arguments are evaluated from left to right: m.Tolist()
runs before m.Bytes(), which serializes the message as Tolist has left it. -/
def Send {σ A ε : Type} (SendMail : σ → MailCall A → Option ε × σ) (s : σ) (addr : Str)
    (auth : A) (m : Message) (rc : Recipients) (mem : Arrays) (fresh : Nat) (hp : Heap)
    (date : Str) (ρ : Sched) (η : List Sched) : (Option ε × σ) × Heap × Arrays :=
  let sender := m.From
  let t := m.Tolist rc mem fresh
  let r := t.2.1.Bytes hp date ρ η
  (SendMail s { addr := addr, auth := auth, sender := sender, recipients := t.1, msg := r.1 },
    r.2, t.2.2)

/-- Number of positions of s at which the text p starts. -/
def occ (p : Str) : Str → Nat
  | [] => 0
  | c :: s => (if p.isPrefixOf (c :: s) then 1 else 0) + occ p s

/-- The boundary delimiter, two dashes and the boundary. -/
def delimiter : Str := lit "--" ++ boundary

/-! ## Definitions used in the statements and proofs -/

/-- The string starts with a byte that is not in p. -/
def SepStart (p y : Str) : Prop := ∃ c y', y = c :: y' ∧ c ∉ p

/-- The string ends with a byte that is not in p. -/
def SepEnd (p x : Str) : Prop := ∃ x' c, x = x' ++ [c] ∧ c ∉ p

/-- The bytes that separate the fields of the output from the fixed text are
not in p: line feed, space, colon, semicolon, double quote and comma. -/
def Seps (p : Str) : Prop :=
  p ≠ [] ∧ (10 : Byte) ∉ p ∧ (32 : Byte) ∉ p ∧ (58 : Byte) ∉ p ∧ (59 : Byte) ∉ p ∧
    (34 : Byte) ∉ p ∧ (44 : Byte) ∉ p

/-- The fixed texts of the envelope header lines. -/
def envelopeTexts : List Str :=
  [lit "From: ", lit "Date: ", lit "To: ", lit "Cc: ", lit "Subject: ", lit "MIME-Version: 1.0\n"]

/-- The multipart header and the opening delimiter line (email.go, lines 140-141). -/
def multipartHeader : Str :=
  (lit "Content-Type: multipart/mixed; boundary=" ++ boundary ++ lit "\n")
    ++ (lit "--" ++ boundary ++ lit "\n")

/-- The body part (email.go, lines 144-146). -/
def bodyPart (m : Message) : Str :=
  (lit "Content-Type: " ++ m.BodyContentType ++ lit "; charset=utf-8\n\n") ++ m.Body ++ lit "\n"

/-- The attachments in the order in which the loop of Message.Bytes visits them. -/
def Message.visited (m : Message) (ρ : Sched) : List Attachment :=
  (rangeOrder ρ m.entries).map (fun e => e.2)

/-- Neither the keys nor the values of the entries contain p. -/
def CleanEntries (p : Str) (l : List (Str × Str)) : Prop :=
  ∀ kv ∈ l, occ p kv.1 = 0 ∧ occ p kv.2 = 0

/-- The fixed texts of the attachment headers. -/
def attachmentTexts : List Str :=
  [lit "Content-Type", lit "message/rfc822", lit "Content-Disposition",
   lit "inline; filename=\"", lit "application/octet-stream", lit "Content-Tranfer-Encoding",
   lit "base64", lit "attachment; filename=\""]

/-- The delimiter line written before an attachment part (email.go, line 150). -/
def openLine : Str := lit "\n\n--" ++ boundary ++ lit "\n"

/-- The delimiter written after an attachment part (email.go, line 152). -/
def closeMark : Str := lit "\n--" ++ boundary

/-- Every attachment of the list has a file name, a body and a header map
without p. -/
def PartsClean (p : Str) (hp : Heap) (as : List Attachment) : Prop :=
  ∀ a ∈ as, occ p a.Filename = 0 ∧ occ p a.body = 0 ∧
    CleanEntries p (a.startHeaders hp).entries

/-- The fixed headers of an attachment, as the specification lists them. -/
def fixedHeaders (a : Attachment) : List (Str × Str) :=
  if a.Inline then
    [(lit "Content-Type", lit "message/rfc822"),
     (lit "Content-Disposition", lit "inline; filename=\"" ++ a.Filename ++ lit "\"")]
  else
    [(lit "Content-Type", lit "application/octet-stream"),
     (lit "Content-Tranfer-Encoding", lit "base64"),
     (lit "Content-Disposition", lit "attachment; filename=\"" ++ a.Filename ++ lit "\"")]

/-- The caller's headers overridden by fixed entries, as the specification
words it: the fixed entries, and the entries of the caller under the other keys. -/
def overridden (caller fixed : List (Str × Str)) : List (Str × Str) :=
  fixed ++ caller.filter (fun e => decide (e.1 ∉ fixed.map Prod.fst))

/-- The envelope fields and the body do not contain p. -/
def Message.FieldsFreeOf (m : Message) (p : Str) : Prop :=
  occ p m.From = 0 ∧ (∀ a ∈ m.To, occ p a = 0) ∧ (∀ a ∈ m.Cc, occ p a = 0) ∧
  occ p m.Subject = 0 ∧ occ p m.Body = 0

/-- The file name, the header map and the emitted body of every attachment do
not contain p. -/
def Message.PartsFreeOf (m : Message) (p : Str) (hp : Heap) : Prop :=
  ∀ e ∈ m.entries, occ p e.2.Filename = 0 ∧ occ p e.2.body = 0 ∧
    ∀ kv ∈ (e.2.startHeaders hp).entries, occ p kv.1 = 0 ∧ occ p kv.2 = 0

/-- The texts that the serializer copies do not contain p: the envelope
fields and the body, the formatted date, the content type of the body, and the
file name, the header map and the emitted body of every attachment. -/
def Message.FreeOf (m : Message) (p : Str) (hp : Heap) (date : Str) : Prop :=
  m.FieldsFreeOf p ∧ occ p date = 0 ∧ occ p m.BodyContentType = 0 ∧ m.PartsFreeOf p hp

instance (m : Message) (p : Str) : Decidable (m.FieldsFreeOf p) := by
  unfold Message.FieldsFreeOf
  infer_instance

instance (m : Message) (p : Str) (hp : Heap) : Decidable (m.PartsFreeOf p hp) := by
  unfold Message.PartsFreeOf
  infer_instance

instance (m : Message) (p : Str) (hp : Heap) (date : Str) : Decidable (m.FreeOf p hp date) := by
  unfold Message.FreeOf
  infer_instance

/-- Either of the two exported calls that add an attachment from a reader. -/
def Message.add (m : Message) (inline : Bool) (reader : Reader) (filename : Str)
    (headers : Option Nat) : Outcome :=
  if inline then m.InlineReader reader filename headers
  else m.AttachReader reader filename headers

/-- The zero value of the struct Message: empty fields and a nil attachment map. -/
def zeroMessage : Message :=
  { From := [], To := [], Cc := [], Bcc := [], Subject := [], Body := [],
    BodyContentType := [], Attachments := none }

/-- A heap in which every header map is empty. -/
def emptyHeap : Heap := fun _ => emptyMap

/-- A formatted date. -/
def sampleDate : Str := lit "01 Nov 26 23:35 UTC"

/-- A file attachment. -/
def sampleFile : Attachment :=
  { Filename := lit "a.txt", Data := lit "hello", Inline := false, Headers := none }

/-- An inline attachment. -/
def sampleInline : Attachment :=
  { Filename := lit "b.txt", Data := lit "world", Inline := true, Headers := none }

/-- A message with one attachment. -/
def onePart : Message :=
  { NewMessage (lit "Hi") (lit "this is the body") with
    From := lit "to@example.com", To := [lit "to@example.com"],
    Attachments := some (mapSet emptyMap (lit "a.txt") sampleFile) }

/-- A message with two attachments. -/
def twoParts : Message :=
  { NewMessage (lit "Hi") (lit "this is the body") with
    From := lit "to@example.com", To := [lit "to@example.com"],
    Attachments := some (mapSet (mapSet emptyMap (lit "a.txt") sampleFile)
      (lit "b.txt") sampleInline) }

/-- A message without attachments whose content type carries a boundary parameter. -/
def typedMessage : Message :=
  { NewMessage (lit "Hi") (lit "this is the body") with
    From := lit "to@example.com", To := [lit "to@example.com"],
    BodyContentType := lit "text/plain; boundary=f46d043c813270fc6b04c2d223da" }

/-- A message with one attachment whose content type carries a delimiter. -/
def typedPart : Message :=
  { onePart with BodyContentType := lit "text/plain; x=--f46d043c813270fc6b04c2d223da" }

/-- The test message of TestAttachReader before the attachment is added. -/
def testMessage : Message :=
  { NewMessage (lit "Hi") (lit "this is the body") with
    From := lit "to@example.com", To := [lit "to@example.com"] }

/-- The part written for each attachment of the list, in the order of the
list: the delimiter line, the bytes of the attachment on the heap of that
moment, and the closing delimiter. -/
def fragments : List Attachment → List Sched → Heap → List Str
  | [], _, _ => []
  | a :: rest, η, hp =>
    (openLine ++ (a.Bytes hp (η.headD [])).1 ++ closeMark)
      :: fragments rest η.tail (a.Bytes hp (η.headD [])).2

/-- A transport that records its calls: the state is the list of the calls
made so far, and answer gives the error value of each call. -/
def recording {A ε : Type} (answer : MailCall A → Option ε) :
    List (MailCall A) → MailCall A → Option ε × List (MailCall A) :=
  fun log call => (answer call, log ++ [call])

/-- One call of AttachReader (inline false) or InlineReader (inline true). -/
structure Addition where
  inline : Bool
  reader : Reader
  filename : Str
  headers : Option Nat
deriving DecidableEq

/-- The attachment that a successful addition stores. -/
def Addition.stored (c : Addition) : Attachment :=
  { Filename := c.filename, Data := c.reader.data, Inline := c.inline, Headers := c.headers }

/-- The calls made one after the other on a message; none when one of them
panics.  A call that returns an error is followed by the next call. -/
def Message.addAll : Message → List Addition → Option Message
  | m, [] => some m
  | m, c :: cs =>
    match m.add c.inline c.reader c.filename c.headers with
    | Outcome.returned _ m' => Message.addAll m' cs
    | Outcome.panicked => none

/-- No two attachments of the list have the same header map, nil apart. -/
def Unshared (as : List Attachment) : Prop :=
  (as.filterMap (fun a => a.Headers)).Nodup

instance (as : List Attachment) : Decidable (Unshared as) := by
  unfold Unshared
  infer_instance

/-- The messages that a program gets from NewMessage or NewHTMLMessage by
assignments to the envelope fields and by calls of AttachReader, InlineReader,
Attach and Inline, whatever these calls return. -/
inductive Reachable : Message → Prop
  | plain (s b : Str) : Reachable (NewMessage s b)
  | html (s b : Str) : Reachable (NewHTMLMessage s b)
  | assign (m : Message) (sender : Str) (tos ccs bccs : List Str) (s b t : Str) :
      Reachable m →
      Reachable { m with From := sender, To := tos, Cc := ccs, Bcc := bccs, Subject := s,
                         Body := b, BodyContentType := t }
  | reader (m m' : Message) (i : Bool) (r : Reader) (f : Str) (h : Option Nat)
      (e : Option IOError) :
      Reachable m → m.add i r f h = Outcome.returned e m' → Reachable m'
  | attachFile (m m' : Message) (fs : FileSystem) (hp : Heap) (fresh : Nat) (file : Str)
      (e : Option IOError) :
      Reachable m → (m.Attach fs hp fresh file).1 = Outcome.returned e m' → Reachable m'
  | inlineFile (m m' : Message) (fs : FileSystem) (hp : Heap) (fresh : Nat) (file : Str)
      (e : Option IOError) :
      Reachable m → (m.Inline fs hp fresh file).1 = Outcome.returned e m' → Reachable m'

/-- A file system with one file, dir/email_test.go. -/
def sampleFS : FileSystem :=
  fun path => if path = lit "dir/email_test.go" then Except.ok ⟨lit "package email", none⟩
    else Except.error 2

/-- The test message after Attach of dir/email_test.go, with the new header
map at address 0. -/
def attachedMessage : Message :=
  { testMessage with
    Attachments := some (mapSet emptyMap (lit "email_test.go")
      { Filename := lit "email_test.go", Data := lit "package email", Inline := false,
        Headers := some 0 }) }

/-- A message whose two attachments, the inline b.txt and the file a.txt, were
given the same header map, the one at address 0. -/
def sharedParts : Message :=
  { testMessage with
    Attachments := some (mapSet (mapSet emptyMap (lit "b.txt")
        { sampleInline with Headers := some 0 })
      (lit "a.txt") { sampleFile with Headers := some 0 }) }

/-- The additions that make twoParts from the test message: a.txt by
AttachReader, then b.txt by InlineReader. -/
def orderedAdds : List Addition :=
  [{ inline := false, reader := ⟨lit "hello", none⟩, filename := lit "a.txt", headers := none },
   { inline := true, reader := ⟨lit "world", none⟩, filename := lit "b.txt", headers := none }]

/-- The slice lies in its backing array. -/
def Slice.Valid (s : Slice) (mem : Arrays) : Prop :=
  s.len ≤ s.cap ∧ s.off + s.cap ≤ (mem s.arr).length

instance (s : Slice) (mem : Arrays) : Decidable (s.Valid mem) := by
  unfold Slice.Valid
  infer_instance

/-- Cell i of the array at address a holds an element of the slice. -/
def Slice.Holds (s : Slice) (a i : Nat) : Prop :=
  a = s.arr ∧ s.off ≤ i ∧ i < s.off + s.len

/-- Cell i of the array at address a holds an element of To, of Cc or of Bcc. -/
def Kept (rc : Recipients) (a i : Nat) : Prop :=
  rc.To.Holds a i ∨ rc.Cc.Holds a i ∨ rc.Bcc.Holds a i

/-- No element of Cc or Bcc lies in the spare capacity of To. -/
def Unaliased (rc : Recipients) : Prop :=
  ∀ j, rc.To.off + rc.To.len ≤ j → j < rc.To.off + rc.To.cap →
    ¬ rc.Cc.Holds rc.To.arr j ∧ ¬ rc.Bcc.Holds rc.To.arr j

/-- The state of the loops of Tolist after the elements acc have been put in
tolist: tolist holds acc, it is the slice To grown in place or a slice in an
array made since, and the cells of To, Cc and Bcc are as they were. -/
def Inv (rc : Recipients) (mem : Arrays) (fresh0 : Nat) (st : Slice × Arrays × Nat)
    (acc : List Str) : Prop :=
  st.1.len ≤ st.1.cap ∧ st.1.off + st.1.cap ≤ (st.2.1 st.1.arr).length ∧
  st.1.read st.2.1 = acc ∧ fresh0 ≤ st.2.2 ∧ st.1.arr < st.2.2 ∧
  (∀ a i, Kept rc a i → (st.2.1 a)[i]? = (mem a)[i]?) ∧
  (st.1.arr < fresh0 → st.1.arr = rc.To.arr ∧ st.1.off = rc.To.off ∧
    st.1.cap = rc.To.cap ∧ rc.To.len ≤ st.1.len)

/-- The arrays of a program that made the three literals of the example of
Tolist: [a], [a, b] and [b]. -/
def literalArrays : Arrays :=
  fun a => if a = 0 then [lit "a"] else if a = 1 then [lit "a", lit "b"]
    else if a = 2 then [lit "b"] else []

/-- The slices of the three literals: each fills its own array. -/
def literals : Recipients :=
  { To := { arr := 0, off := 0, len := 1, cap := 1 },
    Cc := { arr := 1, off := 0, len := 2, cap := 2 },
    Bcc := { arr := 2, off := 0, len := 1, cap := 1 } }

/-- The arrays of a program that made all := [alice@x, bob@x, carol@x] and the
one-element array [dave@x]. -/
def sharedArrays : Arrays :=
  fun a => if a = 0 then [lit "alice@x", lit "bob@x", lit "carol@x"]
    else if a = 1 then [lit "dave@x"] else []

/-- The slices To = all[:1], Cc = [dave@x] and Bcc = all[1:]: To has the
capacity 3 and Bcc lies in its spare capacity. -/
def overlapped : Recipients :=
  { To := { arr := 0, off := 0, len := 1, cap := 3 },
    Cc := { arr := 1, off := 0, len := 1, cap := 1 },
    Bcc := { arr := 0, off := 1, len := 2, cap := 2 } }

/-- The test message with the recipients of overlapped. -/
def overlappedMessage : Message :=
  { testMessage with To := [lit "alice@x"], Cc := [lit "dave@x"],
                     Bcc := [lit "bob@x", lit "carol@x"] }

/-- The arrays of a program that made all := [alice@x, bob@x, carol@x] and the
one-element array [secret@x]. -/
def leakArrays : Arrays :=
  fun a => if a = 0 then [lit "alice@x", lit "bob@x", lit "carol@x"]
    else if a = 1 then [lit "secret@x"] else []

/-- The slices To = all[:1], Cc = all[2:3] and Bcc = [secret@x]: Cc lies in the
spare capacity of To. -/
def leakRecipients : Recipients :=
  { To := { arr := 0, off := 0, len := 1, cap := 3 },
    Cc := { arr := 0, off := 2, len := 1, cap := 1 },
    Bcc := { arr := 1, off := 0, len := 1, cap := 1 } }

/-- The test message with the recipients of leakRecipients. -/
def leakMessage : Message :=
  { testMessage with To := [lit "alice@x"], Cc := [lit "carol@x"], Bcc := [lit "secret@x"] }

/-! ## Maps: keys stay distinct -/

theorem mem_keys_setEntry {V : Type} (l : List (Str × V)) (k : Str) (v : V) (x : Str) :
    x ∈ (setEntry l k v).map Prod.fst ↔ x = k ∨ x ∈ l.map Prod.fst := by
  induction l with
  | nil => simp [setEntry]
  | cons e rest ih =>
    obtain ⟨k', v'⟩ := e
    by_cases h : k' = k
    · subst h
      simp [setEntry]
    · simp only [setEntry, if_neg h, List.map_cons, List.mem_cons, ih]
      tauto

theorem nodup_keys_setEntry {V : Type} (l : List (Str × V)) (k : Str) (v : V)
    (h : (l.map Prod.fst).Nodup) : ((setEntry l k v).map Prod.fst).Nodup := by
  induction l with
  | nil => simp [setEntry]
  | cons e rest ih =>
    obtain ⟨k', v'⟩ := e
    rw [List.map_cons, List.nodup_cons] at h
    by_cases hk : k' = k
    · subst hk
      simp only [setEntry, if_true, List.map_cons, List.nodup_cons]
      exact h
    · simp only [setEntry, if_neg hk, List.map_cons, List.nodup_cons, mem_keys_setEntry]
      exact ⟨fun hx => hx.elim hk h.1, ih h.2⟩

/-! ## base64 -/

theorem decChar_encChar_fin : ∀ i : Fin 64, decChar (encChar i.val) = some i.val := by
  decide

theorem encChar_ne_pad_fin : ∀ i : Fin 64, encChar i.val ≠ padChar := by
  decide

theorem decChar_encChar {i : Nat} (h : i < 64) : decChar (encChar i) = some i :=
  decChar_encChar_fin ⟨i, h⟩

theorem encChar_ne_pad {i : Nat} (h : i < 64) : encChar i ≠ padChar :=
  encChar_ne_pad_fin ⟨i, h⟩

theorem ofNat_byte {n : Nat} (a : Byte) (h : n = a.val) : (Fin.ofNat n : Byte) = a := by
  apply Fin.ext
  have := a.isLt
  simp only [Fin.ofNat, h]
  omega

theorem b64Decode_b64Encode_aux :
    ∀ (n : Nat) (l : Str), l.length ≤ n → b64Decode (b64Encode l) = some l := by
  intro n
  induction n with
  | zero =>
    intro l hl
    have : l = [] := List.length_eq_zero.mp (Nat.le_zero.mp hl)
    subst this
    simp [b64Encode, b64Decode]
  | succ n ih =>
    intro l hl
    match l, hl with
    | [], _ => simp [b64Encode, b64Decode]
    | [a], _ =>
      have ha := a.isLt
      simp only [b64Encode, b64Decode, decChar_encChar (Nat.mod_lt _ (by norm_num : 64 > 0)),
        if_true, and_self]
      congr 2
      apply ofNat_byte
      omega
    | [a, b], _ =>
      have ha := a.isLt
      have hb := b.isLt
      simp only [b64Encode, b64Decode, decChar_encChar (Nat.mod_lt _ (by norm_num : 64 > 0)),
        if_true, and_self, if_neg (encChar_ne_pad (Nat.mod_lt _ (by norm_num : 64 > 0)))]
      congr 2
      · apply ofNat_byte
        omega
      · congr 1
        apply ofNat_byte
        omega
    | a :: b :: c :: rest, hl =>
      have ha := a.isLt
      have hb := b.isLt
      have hc := c.isLt
      have hrest : rest.length ≤ n := by
        simp only [List.length_cons] at hl
        omega
      simp only [b64Encode, b64Decode, decChar_encChar (Nat.mod_lt _ (by norm_num : 64 > 0)),
        if_neg (encChar_ne_pad (Nat.mod_lt _ (by norm_num : 64 > 0))), ih rest hrest]
      congr 2
      · apply ofNat_byte
        omega
      · congr 1
        · apply ofNat_byte
          omega
        · congr 1
          apply ofNat_byte
          omega

theorem b64Decode_b64Encode (l : Str) : b64Decode (b64Encode l) = some l :=
  b64Decode_b64Encode_aux l.length l (Nat.le_refl _)

theorem length_b64Encode_aux :
    ∀ (n : Nat) (l : Str), l.length ≤ n → (b64Encode l).length = EncodedLen l.length := by
  intro n
  induction n with
  | zero =>
    intro l hl
    have : l = [] := List.length_eq_zero.mp (Nat.le_zero.mp hl)
    subst this
    simp [b64Encode, EncodedLen]
  | succ n ih =>
    intro l hl
    match l, hl with
    | [], _ => simp [b64Encode, EncodedLen]
    | [a], _ => simp [b64Encode, EncodedLen]
    | [a, b], _ => simp [b64Encode, EncodedLen]
    | a :: b :: c :: rest, hl =>
      have hrest : rest.length ≤ n := by
        simp only [List.length_cons] at hl
        omega
      simp only [b64Encode, List.length_cons, ih rest hrest, EncodedLen]
      omega

/-! ## Occurrences of a text -/

theorem occ_cons (p : Str) (c : Byte) (s : Str) :
    occ p (c :: s) = (if p.isPrefixOf (c :: s) then 1 else 0) + occ p s := rfl

theorem isPrefixOf_append_sep (p x y : Str) (c : Byte) (hc : c ∉ p) :
    p.isPrefixOf (x ++ c :: y) = p.isPrefixOf x := by
  induction p generalizing x with
  | nil => simp
  | cons b p ih =>
    have hbc : b ≠ c := fun h => hc (h ▸ List.mem_cons_self _ _)
    have hcp : c ∉ p := fun h => hc (List.mem_cons_of_mem _ h)
    cases x with
    | nil => simp [List.isPrefixOf, hbc]
    | cons a x => simp [List.isPrefixOf, ih x hcp]

theorem occ_append_sepStart {p y : Str} (x : Str) (hy : SepStart p y) :
    occ p (x ++ y) = occ p x + occ p y := by
  obtain ⟨c, y', rfl, hc⟩ := hy
  induction x with
  | nil => simp [occ]
  | cons a x ih =>
    have h := isPrefixOf_append_sep p (a :: x) y' c hc
    rw [List.cons_append] at h
    rw [List.cons_append, occ_cons p a (x ++ c :: y'), occ_cons p a x, h, ih]
    omega

theorem occ_sep_cons {p : Str} {c : Byte} (hc : c ∉ p) (y : Str) :
    occ p (c :: y) = occ p [c] + occ p y := by
  have h := isPrefixOf_append_sep p [] y c hc
  have h' := isPrefixOf_append_sep p [] [] c hc
  simp only [List.nil_append] at h h'
  simp [occ, h, h']

theorem occ_append_sepEnd {p x : Str} (hx : SepEnd p x) (y : Str) :
    occ p (x ++ y) = occ p x + occ p y := by
  obtain ⟨x', c, rfl, hc⟩ := hx
  have h1 : occ p (x' ++ c :: y) = occ p x' + occ p (c :: y) :=
    occ_append_sepStart x' ⟨c, y, rfl, hc⟩
  have h2 : occ p (x' ++ [c]) = occ p x' + occ p [c] :=
    occ_append_sepStart x' ⟨c, [], rfl, hc⟩
  rw [List.append_assoc, List.singleton_append, h1, h2, occ_sep_cons hc]
  omega

theorem sepStart_append {p x : Str} (hx : SepStart p x) (y : Str) : SepStart p (x ++ y) := by
  obtain ⟨c, x', rfl, hc⟩ := hx
  exact ⟨c, x' ++ y, rfl, hc⟩

theorem sepEnd_append {p y : Str} (x : Str) (hy : SepEnd p y) : SepEnd p (x ++ y) := by
  obtain ⟨y', c, rfl, hc⟩ := hy
  exact ⟨x ++ y', c, by simp, hc⟩

/-- No occurrence means p is not a contiguous part of s. -/
theorem occ_eq_zero_iff (p s : Str) (hp : p ≠ []) : occ p s = 0 ↔ ¬ p <:+: s := by
  induction s with
  | nil =>
    simp only [occ, List.infix_nil, true_iff]
    exact hp
  | cons c s ih =>
    simp only [occ, Nat.add_eq_zero, ih, List.infix_cons_iff, not_or]
    constructor
    · rintro ⟨h1, h2⟩
      refine ⟨?_, h2⟩
      intro hpre
      have : p.isPrefixOf (c :: s) = true := List.isPrefixOf_iff_prefix.mpr hpre
      simp [this] at h1
    · rintro ⟨h1, h2⟩
      refine ⟨?_, h2⟩
      have : ¬ p.isPrefixOf (c :: s) = true := fun h => h1 (List.isPrefixOf_iff_prefix.mp h)
      simp [this]

/-- A string without the text p has no occurrence of a text that ends with p. -/
theorem occ_eq_zero_of_suffix (q p s : Str) (hp : p ≠ []) (h : occ p s = 0) :
    occ (q ++ p) s = 0 := by
  have hqp : q ++ p ≠ [] := by simp [hp]
  rw [occ_eq_zero_iff _ _ hqp]
  rw [occ_eq_zero_iff _ _ hp] at h
  intro hin
  exact h (List.IsInfix.trans (List.infix_append' [] p [] |> fun _ => (List.suffix_append q p).isInfix) hin)

/-! ## Range order and map entries -/

theorem insertAt_perm {α : Type} (i : Nat) (x : α) (l : List α) :
    (insertAt i x l).Perm (x :: l) := by
  induction l generalizing i with
  | nil => cases i <;> exact List.Perm.refl _
  | cons y ys ih =>
    cases i with
    | zero => exact List.Perm.refl _
    | succ i =>
      simp only [insertAt]
      exact ((ih i).cons y).trans (List.Perm.swap x y ys)

/-- A range loop visits every entry exactly once. -/
theorem rangeOrder_perm {α : Type} (ρ : Sched) (l : List α) : (rangeOrder ρ l).Perm l := by
  induction l generalizing ρ with
  | nil => exact List.Perm.refl _
  | cons x xs ih =>
    simp only [rangeOrder]
    exact (insertAt_perm _ x _).trans ((ih ρ.tail).cons x)

theorem mem_rangeOrder {α : Type} (ρ : Sched) (l : List α) (x : α) :
    x ∈ rangeOrder ρ l ↔ x ∈ l :=
  (rangeOrder_perm ρ l).mem_iff

theorem length_rangeOrder {α : Type} (ρ : Sched) (l : List α) :
    (rangeOrder ρ l).length = l.length :=
  (rangeOrder_perm ρ l).length_eq

theorem insertAt_length_append {α : Type} (A B : List α) (x : α) :
    insertAt A.length x (A ++ B) = A ++ x :: B := by
  induction A with
  | nil => cases B <;> rfl
  | cons a A ih =>
    rw [List.length_cons, List.cons_append, insertAt, ih, List.cons_append]

/-- Every order of the entries is the order of some schedule. -/
theorem rangeOrder_surjective {α : Type} (l l' : List α) (h : l'.Perm l) :
    ∃ ρ : Sched, rangeOrder ρ l = l' := by
  induction l generalizing l' with
  | nil => exact ⟨[], (List.Perm.eq_nil h).symm ▸ rfl⟩
  | cons x xs ih =>
    have hx : x ∈ l' := h.symm.subset (List.mem_cons_self _ _)
    obtain ⟨A, B, rfl⟩ := List.append_of_mem hx
    have hAB : (A ++ B).Perm xs :=
      (List.perm_cons x).mp ((List.perm_middle.symm).trans h)
    obtain ⟨ρ, hρ⟩ := ih (A ++ B) hAB
    refine ⟨A.length :: ρ, ?_⟩
    simp only [rangeOrder, List.headD_cons, List.tail_cons, hρ, insertAt_length_append]

/-- The empty schedule visits the entries in the order of the list. -/
theorem rangeOrder_nil {α : Type} (l : List α) : rangeOrder [] l = l := by
  induction l with
  | nil => rfl
  | cons x xs ih =>
    simp only [rangeOrder, List.tail_nil, ih, List.headD_nil]
    cases xs <;> rfl

theorem mem_setEntry {V : Type} (l : List (Str × V)) (k : Str) (v : V) (e : Str × V)
    (h : e ∈ setEntry l k v) : e = (k, v) ∨ e ∈ l := by
  induction l with
  | nil =>
    simp only [setEntry, List.mem_singleton] at h
    exact Or.inl h
  | cons e' rest ih =>
    obtain ⟨k', v'⟩ := e'
    by_cases hk : k' = k
    · simp only [setEntry, if_pos hk, List.mem_cons] at h
      rcases h with h | h
      · exact Or.inl h
      · exact Or.inr (List.mem_cons_of_mem _ h)
    · simp only [setEntry, if_neg hk, List.mem_cons] at h
      rcases h with h | h
      · exact Or.inr (h ▸ List.mem_cons_self _ _)
      · rcases ih h with h | h
        · exact Or.inl h
        · exact Or.inr (List.mem_cons_of_mem _ h)

theorem getEntry_setEntry_self {V : Type} (l : List (Str × V)) (k : Str) (v : V) :
    getEntry (setEntry l k v) k = some v := by
  induction l with
  | nil => simp [setEntry, getEntry]
  | cons e rest ih =>
    obtain ⟨k', v'⟩ := e
    by_cases hk : k' = k
    · simp [setEntry, getEntry, hk]
    · simp [setEntry, getEntry, hk, ih]

theorem getEntry_setEntry_ne {V : Type} (l : List (Str × V)) (k k' : Str) (v : V)
    (h : k' ≠ k) : getEntry (setEntry l k v) k' = getEntry l k' := by
  induction l with
  | nil =>
    simp only [setEntry, getEntry]
    rw [if_neg (fun hk => h hk.symm)]
  | cons e rest ih =>
    obtain ⟨k1, v1⟩ := e
    by_cases hk : k1 = k
    · subst hk
      simp only [setEntry, getEntry, if_true]
      rw [if_neg (fun hk => h hk.symm), if_neg (fun hk => h hk.symm)]
    · simp only [setEntry, if_neg hk, getEntry, ih]

theorem length_setEntry {V : Type} (l : List (Str × V)) (k : Str) (v : V) :
    (setEntry l k v).length = if k ∈ l.map Prod.fst then l.length else l.length + 1 := by
  induction l with
  | nil => simp [setEntry]
  | cons e rest ih =>
    obtain ⟨k1, v1⟩ := e
    by_cases hk : k1 = k
    · simp [setEntry, hk]
    · have hk' : ¬ k = k1 := fun h => hk h.symm
      simp only [setEntry, if_neg hk, List.length_cons, ih, List.map_cons, List.mem_cons, hk',
        false_or]
      split <;> rfl

/-! ## Separators -/

theorem occ_single_sep {p : Str} {c : Byte} (hp : p ≠ []) (hc : c ∉ p) : occ p [c] = 0 := by
  cases p with
  | nil => exact absurd rfl hp
  | cons b p =>
    have hbc : b ≠ c := fun h => hc (h ▸ List.mem_cons_self _ _)
    simp [occ, List.isPrefixOf, hbc]

theorem occ_cons_sep {p : Str} {c : Byte} (hp : p ≠ []) (hc : c ∉ p) (y : Str) :
    occ p (c :: y) = occ p y := by
  rw [occ_sep_cons hc, occ_single_sep hp hc, Nat.zero_add]

theorem occ_append_cons_sep {p : Str} {c : Byte} (hp : p ≠ []) (hc : c ∉ p) (x y : Str) :
    occ p (x ++ c :: y) = occ p x + occ p y := by
  rw [occ_append_sepStart x ⟨c, y, rfl, hc⟩, occ_cons_sep hp hc]

theorem sepEnd_of_getLast {p x : Str} {c : Byte} (h : x.getLast? = some c) (hc : c ∉ p) :
    SepEnd p x := by
  obtain ⟨x', rfl⟩ : ∃ x', x = x' ++ [c] := by
    have hne : x ≠ [] := by
      intro h0
      simp [h0] at h
    refine ⟨x.dropLast, ?_⟩
    have h1 := List.dropLast_append_getLast? c (by simpa using h : c ∈ x.getLast?)
    exact h1.symm
  exact ⟨x', c, rfl, hc⟩

theorem lit_nl : lit "\n" = [10] := by decide

theorem lit_colon : lit ": " = [58, 32] := by decide

theorem lit_comma : lit "," = [44] := by decide

theorem lit_quote : lit "\"" = [34] := by decide

theorem occ_join {p : Str} (hs : Seps p) (l : List Str) (h : ∀ a ∈ l, occ p a = 0) :
    occ p (join (lit ",") l) = 0 := by
  induction l with
  | nil => rfl
  | cons a rest ih =>
    cases rest with
    | nil => exact h a (List.mem_cons_self _ _)
    | cons b rest =>
      have ha := h a (List.mem_cons_self _ _)
      have hr := ih (fun x hx => h x (List.mem_cons_of_mem _ hx))
      rw [lit_comma] at hr
      simp only [join, lit_comma, List.append_assoc, List.singleton_append]
      rw [occ_append_cons_sep hs.1 hs.2.2.2.2.2.2, ha, hr]

theorem occ_field_line {p : Str} (hs : Seps p) (name x : Str)
    (hname : name.getLast? = some 32) (rest : Str) :
    occ p ((name ++ x ++ lit "\n") ++ rest) = occ p name + occ p x + occ p rest := by
  have h1 : SepEnd p name := sepEnd_of_getLast hname hs.2.2.1
  rw [lit_nl, List.append_assoc, List.append_assoc, occ_append_sepEnd h1,
    List.singleton_append, occ_append_cons_sep hs.1 hs.2.1]
  omega

/-- The envelope lines add no occurrence of p when their fields and their fixed
texts have none. -/
theorem occ_envelope {p : Str} (hs : Seps p) (ht : ∀ t ∈ envelopeTexts, occ p t = 0)
    (m : Message) (date : Str)
    (hFrom : occ p m.From = 0) (hDate : occ p date = 0) (hTo : ∀ a ∈ m.To, occ p a = 0)
    (hCc : ∀ a ∈ m.Cc, occ p a = 0) (hSubject : occ p m.Subject = 0) (rest : Str) :
    occ p (m.envelope date ++ rest) = occ p rest := by
  have t1 : occ p (lit "From: ") = 0 := ht _ (by simp [envelopeTexts])
  have t2 : occ p (lit "Date: ") = 0 := ht _ (by simp [envelopeTexts])
  have t3 : occ p (lit "To: ") = 0 := ht _ (by simp [envelopeTexts])
  have t4 : occ p (lit "Cc: ") = 0 := ht _ (by simp [envelopeTexts])
  have t5 : occ p (lit "Subject: ") = 0 := ht _ (by simp [envelopeTexts])
  have t6 : occ p (lit "MIME-Version: 1.0\n") = 0 := ht _ (by simp [envelopeTexts])
  have e6 : SepEnd p (lit "MIME-Version: 1.0\n") :=
    sepEnd_of_getLast (c := 10) (by decide) hs.2.1
  have hjTo := occ_join hs m.To hTo
  have hjCc := occ_join hs m.Cc hCc
  unfold Message.envelope
  simp only [List.nil_append]
  by_cases hc : m.Cc.length > 0
  · simp only [if_pos hc, List.append_assoc (_ ++ _ ++ lit "\n")]
    rw [occ_field_line hs _ _ (by decide), occ_field_line hs _ _ (by decide),
      occ_field_line hs _ _ (by decide), occ_field_line hs _ _ (by decide),
      occ_field_line hs _ _ (by decide), occ_append_sepEnd e6]
    omega
  · simp only [if_neg hc, List.append_assoc (_ ++ _ ++ lit "\n")]
    rw [occ_field_line hs _ _ (by decide), occ_field_line hs _ _ (by decide),
      occ_field_line hs _ _ (by decide),
      occ_field_line hs _ _ (by decide), occ_append_sepEnd e6]
    omega

/-! ## The shape of the serialized message -/

theorem writeParts_buf (as : List Attachment) (η : List Sched) (buf : Str) (hp : Heap) :
    writeParts as η (buf, hp)
      = (buf ++ (writeParts as η ([], hp)).1, (writeParts as η ([], hp)).2) := by
  induction as generalizing η buf hp with
  | nil => simp [writeParts]
  | cons a rest ih =>
    simp only [writeParts]
    rw [ih, ih η.tail ([] ++ _ ++ _ ++ _)]
    simp only [List.nil_append, List.append_assoc]

theorem writeParts_cons (a : Attachment) (rest : List Attachment) (η : List Sched) (hp : Heap) :
    (writeParts (a :: rest) η ([], hp)).1
      = (lit "\n\n--" ++ boundary ++ lit "\n") ++ ((a.Bytes hp (η.headD [])).1
        ++ ((lit "\n--" ++ boundary)
          ++ (writeParts rest η.tail ([], (a.Bytes hp (η.headD [])).2)).1)) := by
  simp only [writeParts]
  rw [writeParts_buf]
  simp only [List.nil_append, List.append_assoc]

/-- The output of Message.Bytes, piece by piece. -/
theorem Bytes_fst (m : Message) (hp : Heap) (date : Str) (ρ : Sched) (η : List Sched) :
    (m.Bytes hp date ρ η).1
      = if m.numAttachments > 0 then
          m.envelope date ++ (multipartHeader ++ (bodyPart m
            ++ ((writeParts (m.visited ρ) η ([], hp)).1 ++ lit "--")))
        else m.envelope date ++ bodyPart m := by
  by_cases h : m.numAttachments > 0
  · simp only [Message.Bytes, if_pos h, Message.visited]
    rw [writeParts_buf]
    simp only [multipartHeader, bodyPart, List.append_assoc]
  · simp only [Message.Bytes, if_neg h, bodyPart, List.append_assoc]

theorem Attachment_Bytes_fst (a : Attachment) (hp : Heap) (ρ : Sched) :
    (a.Bytes hp ρ).1 = a.headerBlock hp ρ ++ (lit "\n" ++ a.body) := by
  simp only [Attachment.Bytes, List.nil_append, List.append_assoc]

/-! ## Occurrences in the attachment parts -/

theorem clean_setEntry {p : Str} {l : List (Str × Str)} (hl : CleanEntries p l) (k v : Str)
    (hk : occ p k = 0) (hv : occ p v = 0) : CleanEntries p (setEntry l k v) := by
  intro kv hkv
  rcases mem_setEntry l k v kv hkv with h | h
  · subst h
    exact ⟨hk, hv⟩
  · exact hl kv h

theorem occ_quoted {p : Str} (hs : Seps p) (t x : Str) (ht : t.getLast? = some 34)
    (h0 : occ p t = 0) (hx : occ p x = 0) : occ p (t ++ x ++ lit "\"") = 0 := by
  have h1 : SepEnd p t := sepEnd_of_getLast ht hs.2.2.2.2.2.1
  rw [lit_quote, List.append_assoc, occ_append_sepEnd h1,
    occ_append_cons_sep hs.1 hs.2.2.2.2.2.1, h0, hx]
  rfl

theorem clean_finalHeaders {p : Str} (hs : Seps p) (ht : ∀ t ∈ attachmentTexts, occ p t = 0)
    (a : Attachment) (hp : Heap) (hfn : occ p a.Filename = 0)
    (hstart : CleanEntries p (a.startHeaders hp).entries) :
    CleanEntries p (a.finalHeaders hp).entries := by
  have t1 : occ p (lit "Content-Type") = 0 := ht _ (by simp [attachmentTexts])
  have t2 : occ p (lit "message/rfc822") = 0 := ht _ (by simp [attachmentTexts])
  have t3 : occ p (lit "Content-Disposition") = 0 := ht _ (by simp [attachmentTexts])
  have t4 : occ p (lit "inline; filename=\"") = 0 := ht _ (by simp [attachmentTexts])
  have t5 : occ p (lit "application/octet-stream") = 0 := ht _ (by simp [attachmentTexts])
  have t6 : occ p (lit "Content-Tranfer-Encoding") = 0 := ht _ (by simp [attachmentTexts])
  have t7 : occ p (lit "base64") = 0 := ht _ (by simp [attachmentTexts])
  have t8 : occ p (lit "attachment; filename=\"") = 0 := ht _ (by simp [attachmentTexts])
  unfold Attachment.finalHeaders
  by_cases hi : a.Inline = true
  · simp only [if_pos hi, mapSet]
    exact clean_setEntry (clean_setEntry hstart _ _ t1 t2) _ _ t3
      (occ_quoted hs _ _ (by decide) t4 hfn)
  · simp only [if_neg hi, mapSet]
    exact clean_setEntry (clean_setEntry (clean_setEntry hstart _ _ t1 t5) _ _ t6 t7) _ _ t3
      (occ_quoted hs _ _ (by decide) t8 hfn)

theorem occ_headerLines {p : Str} (hs : Seps p) (es : List (Str × Str))
    (hes : CleanEntries p es) (rest : Str) :
    occ p ((es.map headerLine).flatten ++ rest) = occ p rest := by
  induction es with
  | nil => rfl
  | cons e es ih =>
    have he := hes e (List.mem_cons_self _ _)
    have hrec := ih (fun kv hkv => hes kv (List.mem_cons_of_mem _ hkv))
    simp only [List.map_cons, List.flatten_cons, headerLine, lit_colon, lit_nl,
      List.append_assoc, List.cons_append, List.nil_append]
    rw [occ_append_cons_sep hs.1 hs.2.2.2.1, occ_cons_sep hs.1 hs.2.2.1,
      occ_append_cons_sep hs.1 hs.2.1, he.1, he.2, hrec]
    omega

/-- An attachment part adds no occurrence of p when its headers, its file name
and its body have none and the text after it starts with a separator. -/
theorem occ_attachmentBytes {p : Str} (hs : Seps p) (a : Attachment) (hp : Heap) (ρ : Sched)
    (hfinal : CleanEntries p (a.finalHeaders hp).entries) (hbody : occ p a.body = 0)
    (rest : Str) (hrest : SepStart p rest) :
    occ p ((a.Bytes hp ρ).1 ++ rest) = occ p rest := by
  have hclean : CleanEntries p (rangeOrder ρ (a.finalHeaders hp).entries) :=
    fun kv hkv => hfinal kv ((mem_rangeOrder ρ _ kv).mp hkv)
  rw [Attachment_Bytes_fst, Attachment.headerBlock, List.append_assoc,
    occ_headerLines hs _ hclean, lit_nl, List.append_assoc, List.singleton_append,
    occ_cons_sep hs.1 hs.2.1, occ_append_sepStart _ hrest, hbody, Nat.zero_add]

theorem writeParts_cons_eq (a : Attachment) (rest : List Attachment) (η : List Sched)
    (hp : Heap) :
    (writeParts (a :: rest) η ([], hp)).1
      = openLine ++ ((a.Bytes hp (η.headD [])).1
        ++ (closeMark ++ (writeParts rest η.tail ([], (a.Bytes hp (η.headD [])).2)).1)) :=
  writeParts_cons a rest η hp

theorem partsClean_step {p : Str} (hs : Seps p) (ht : ∀ t ∈ attachmentTexts, occ p t = 0)
    (a : Attachment) (rest : List Attachment) (hp : Heap) (ρ : Sched)
    (h : PartsClean p hp (a :: rest)) : PartsClean p (a.Bytes hp ρ).2 rest := by
  intro b hb
  have hb' := h b (List.mem_cons_of_mem _ hb)
  have ha := h a (List.mem_cons_self _ _)
  refine ⟨hb'.1, hb'.2.1, ?_⟩
  have hfin := clean_finalHeaders hs ht a hp ha.1 ha.2.2
  have hb2 := hb'.2.2
  unfold Attachment.startHeaders at hb2 ⊢
  unfold Attachment.Bytes
  cases hah : a.Headers with
  | none => exact hb2
  | some r =>
    cases hbh : b.Headers with
    | none =>
      rw [hbh] at hb2
      exact hb2
    | some r' =>
      rw [hbh] at hb2
      simp only [heapSet]
      by_cases hr : r' = r
      · rw [if_pos hr]
        exact hfin
      · rw [if_neg hr]
        exact hb2

theorem seps_delimiter : Seps delimiter := by
  unfold Seps
  decide

theorem seps_boundary : Seps boundary := by
  unfold Seps
  decide

theorem envelopeTexts_delimiter : ∀ t ∈ envelopeTexts, occ delimiter t = 0 := by decide

theorem attachmentTexts_delimiter : ∀ t ∈ attachmentTexts, occ delimiter t = 0 := by decide

theorem occ_closeMark (T : Str) (hT : T = lit "--" ∨ SepStart delimiter T) :
    occ delimiter (closeMark ++ T) = 1 + occ delimiter T := by
  rcases hT with h | h
  · subst h
    decide
  · rw [occ_append_sepStart _ h]
    have : occ delimiter closeMark = 1 := by decide
    rw [this]

/-- Every attachment part brings two delimiters, the one before it and the one
after it. -/
theorem occ_writeParts_delimiter (as : List Attachment) (η : List Sched) (hp : Heap)
    (h : PartsClean delimiter hp as) :
    occ delimiter ((writeParts as η ([], hp)).1 ++ lit "--") = 2 * as.length := by
  induction as generalizing η hp with
  | nil =>
    simp only [writeParts, List.nil_append, List.length_nil]
    decide
  | cons a rest ih =>
    have ha := h a (List.mem_cons_self _ _)
    have hfin := clean_finalHeaders seps_delimiter attachmentTexts_delimiter a hp ha.1 ha.2.2
    have hstep := partsClean_step seps_delimiter attachmentTexts_delimiter a rest hp
      (η.headD []) h
    have hopen : SepEnd delimiter openLine :=
      sepEnd_of_getLast (c := 10) (by decide) seps_delimiter.2.1
    have hclose : SepStart delimiter closeMark := ⟨10, lit "--" ++ boundary, by decide,
      seps_delimiter.2.1⟩
    have hopen1 : occ delimiter openLine = 1 := by decide
    have hT : (writeParts rest η.tail ([], (a.Bytes hp (η.headD [])).2)).1 ++ lit "--"
          = lit "--" ∨
        SepStart delimiter
          ((writeParts rest η.tail ([], (a.Bytes hp (η.headD [])).2)).1 ++ lit "--") := by
      cases rest with
      | nil => exact Or.inl (by simp [writeParts])
      | cons b rest' =>
        refine Or.inr ?_
        rw [writeParts_cons_eq, List.append_assoc]
        exact sepStart_append ⟨10, lit "\n--" ++ boundary ++ lit "\n", by decide,
          seps_delimiter.2.1⟩ _
    rw [writeParts_cons_eq, List.append_assoc, List.append_assoc, List.append_assoc,
      occ_append_sepEnd hopen, hopen1,
      occ_attachmentBytes seps_delimiter a hp _ hfin ha.2.1 _ (sepStart_append hclose _),
      occ_closeMark _ hT, ih η.tail _ hstep, List.length_cons]
    omega

theorem occ_bodyPart {p : Str} (hs : Seps p) (m : Message) (rest : Str) :
    occ p (bodyPart m ++ rest)
      = occ p (lit "Content-Type: ") + occ p m.BodyContentType
        + occ p (lit "; charset=utf-8\n\n") + occ p m.Body + occ p rest := by
  have h1 : SepEnd p (lit "Content-Type: ") :=
    sepEnd_of_getLast (c := 32) (by decide) hs.2.2.1
  have h2 : SepStart p (lit "; charset=utf-8\n\n") :=
    ⟨59, lit " charset=utf-8\n\n", by decide, hs.2.2.2.2.1⟩
  have h3 : SepEnd p (lit "; charset=utf-8\n\n") :=
    sepEnd_of_getLast (c := 10) (by decide) hs.2.1
  unfold bodyPart
  rw [lit_nl]
  simp only [List.append_assoc, List.singleton_append]
  rw [occ_append_sepEnd h1, occ_append_sepStart _ (sepStart_append h2 _),
    occ_append_sepEnd h3, occ_append_cons_sep hs.1 hs.2.1]
  omega

theorem length_visited (m : Message) (ρ : Sched) : (m.visited ρ).length = m.numAttachments := by
  unfold Message.visited Message.numAttachments Message.entries
  rw [List.length_map, length_rangeOrder]
  cases m.Attachments <;> rfl

theorem mem_visited (m : Message) (ρ : Sched) (a : Attachment) (h : a ∈ m.visited ρ) :
    ∃ e ∈ m.entries, e.2 = a := by
  unfold Message.visited at h
  rw [List.mem_map] at h
  obtain ⟨e, he, rfl⟩ := h
  exact ⟨e, (mem_rangeOrder ρ _ e).mp he, rfl⟩

/-- The number of delimiters in a message with attachments, for texts that do
not contain the delimiter. -/
theorem occ_Bytes_delimiter (m : Message) (hp : Heap) (date : Str) (ρ : Sched)
    (η : List Sched) (hn : m.numAttachments > 0)
    (hFrom : occ delimiter m.From = 0) (hDate : occ delimiter date = 0)
    (hTo : ∀ a ∈ m.To, occ delimiter a = 0) (hCc : ∀ a ∈ m.Cc, occ delimiter a = 0)
    (hSubject : occ delimiter m.Subject = 0) (hType : occ delimiter m.BodyContentType = 0)
    (hBody : occ delimiter m.Body = 0)
    (hAtt : PartsClean delimiter hp (m.entries.map (fun e => e.2))) :
    occ delimiter (m.Bytes hp date ρ η).1 = 2 * m.numAttachments + 1 := by
  have hparts : PartsClean delimiter hp (m.visited ρ) := by
    intro a ha
    obtain ⟨e, he, rfl⟩ := mem_visited m ρ a ha
    exact hAtt e.2 (List.mem_map_of_mem _ he)
  have hmh : SepEnd delimiter multipartHeader :=
    sepEnd_of_getLast (c := 10) (by decide) seps_delimiter.2.1
  have hmh1 : occ delimiter multipartHeader = 1 := by decide
  have h1 : occ delimiter (lit "Content-Type: ") = 0 := by decide
  have h2 : occ delimiter (lit "; charset=utf-8\n\n") = 0 := by decide
  rw [Bytes_fst, if_pos hn,
    occ_envelope seps_delimiter envelopeTexts_delimiter m date hFrom hDate hTo hCc hSubject,
    occ_append_sepEnd hmh, hmh1, occ_bodyPart seps_delimiter, h1, h2, hType, hBody,
    occ_writeParts_delimiter _ _ _ hparts, length_visited]
  omega

/-! ## Header maps after the fixed assignments -/

theorem mem_setEntry_iff {V : Type} (l : List (Str × V)) (hl : (l.map Prod.fst).Nodup)
    (k : Str) (v : V) (e : Str × V) :
    e ∈ setEntry l k v ↔ e = (k, v) ∨ (e ∈ l ∧ e.1 ≠ k) := by
  induction l with
  | nil => simp [setEntry]
  | cons e' rest ih =>
    obtain ⟨k', v'⟩ := e'
    rw [List.map_cons, List.nodup_cons] at hl
    by_cases hk : k' = k
    · subst hk
      simp only [setEntry, if_true, List.mem_cons]
      constructor
      · rintro (h | h)
        · exact Or.inl h
        · refine Or.inr ⟨Or.inr h, ?_⟩
          intro he
          have hm := List.mem_map_of_mem Prod.fst h
          rw [he] at hm
          exact hl.1 hm
      · rintro (h | ⟨h | h, hne⟩)
        · exact Or.inl h
        · exact absurd (by rw [h]) hne
        · exact Or.inr h
    · simp only [setEntry, if_neg hk, List.mem_cons, ih hl.2]
      constructor
      · rintro (h | h | ⟨h, hne⟩)
        · refine Or.inr ⟨Or.inl h, ?_⟩
          rw [h]
          exact hk
        · exact Or.inl h
        · exact Or.inr ⟨Or.inr h, hne⟩
      · rintro (h | ⟨h | h, hne⟩)
        · exact Or.inr (Or.inl h)
        · exact Or.inl h
        · exact Or.inr (Or.inr ⟨h, hne⟩)

theorem mem_mapSet_iff {V : Type} (m : GoMap V) (k : Str) (v : V) (e : Str × V) :
    e ∈ (mapSet m k v).entries ↔ e = (k, v) ∨ (e ∈ m.entries ∧ e.1 ≠ k) :=
  mem_setEntry_iff m.entries m.nodup k v e

/-- In a list with distinct keys the entries under the key of one of them are
that entry alone. -/
theorem filter_key_eq {V : Type} (l : List (Str × V)) (hl : (l.map Prod.fst).Nodup)
    (k : Str) (v : V) (h : (k, v) ∈ l) :
    l.filter (fun e => decide (e.1 = k)) = [(k, v)] := by
  induction l with
  | nil => simp at h
  | cons e rest ih =>
    obtain ⟨k', v'⟩ := e
    rw [List.map_cons, List.nodup_cons] at hl
    rcases List.mem_cons.mp h with h1 | h1
    · obtain ⟨rfl, rfl⟩ := Prod.mk.inj h1
      have hrest : rest.filter (fun e => decide (e.1 = k)) = [] := by
        rw [List.filter_eq_nil_iff]
        intro e he hek
        have hk : e.1 = k := by simpa using hek
        have hm := List.mem_map_of_mem Prod.fst he
        rw [hk] at hm
        exact hl.1 hm
      simp [List.filter_cons, hrest]
    · have hne : k' ≠ k := by
        intro hk
        have hm := List.mem_map_of_mem Prod.fst h1
        rw [hk] at hl
        exact hl.1 hm
      simp [List.filter_cons, hne, ih hl.2 h1]

theorem mem_finalHeaders_iff (a : Attachment) (hp : Heap) (e : Str × Str) :
    e ∈ (a.finalHeaders hp).entries
      ↔ e ∈ overridden (a.startHeaders hp).entries (fixedHeaders a) := by
  have h12 : lit "Content-Type" ≠ lit "Content-Disposition" := by decide
  have h13 : lit "Content-Type" ≠ lit "Content-Tranfer-Encoding" := by decide
  have h23 : lit "Content-Tranfer-Encoding" ≠ lit "Content-Disposition" := by decide
  unfold Attachment.finalHeaders overridden fixedHeaders
  by_cases hi : a.Inline = true
  · simp only [if_pos hi, mem_mapSet_iff, List.mem_append, List.mem_filter, List.mem_cons,
      List.map_cons, List.map_nil, List.not_mem_nil, or_false, decide_eq_true_eq, not_or]
    constructor
    · rintro (h | ⟨h | ⟨h, hne1⟩, hne2⟩)
      · exact Or.inl (Or.inr h)
      · exact Or.inl (Or.inl h)
      · exact Or.inr ⟨h, hne1, hne2⟩
    · rintro ((h | h) | ⟨h, hne1, hne2⟩)
      · refine Or.inr ⟨Or.inl h, ?_⟩
        rw [h]
        exact h12
      · exact Or.inl h
      · exact Or.inr ⟨Or.inr ⟨h, hne1⟩, hne2⟩
  · simp only [if_neg hi, mem_mapSet_iff, List.mem_append, List.mem_filter, List.mem_cons,
      List.map_cons, List.map_nil, List.not_mem_nil, or_false, decide_eq_true_eq, not_or]
    constructor
    · rintro (h | ⟨h | ⟨h | ⟨h, hne1⟩, hne2⟩, hne3⟩)
      · exact Or.inl (Or.inr (Or.inr h))
      · exact Or.inl (Or.inr (Or.inl h))
      · exact Or.inl (Or.inl h)
      · exact Or.inr ⟨h, hne1, hne2, hne3⟩
    · rintro ((h | h | h) | ⟨h, hne1, hne2, hne3⟩)
      · refine Or.inr ⟨Or.inr ⟨Or.inl h, ?_⟩, ?_⟩
        · rw [h]
          exact h13
        · rw [h]
          exact h12
      · refine Or.inr ⟨Or.inl h, ?_⟩
        rw [h]
        exact h23
      · exact Or.inl h
      · exact Or.inr ⟨Or.inr ⟨Or.inr ⟨h, hne1⟩, hne2⟩, hne3⟩

theorem seps_contentType : Seps (lit "Content-Type") := by
  unfold Seps
  decide

theorem envelopeTexts_boundary : ∀ t ∈ envelopeTexts, occ boundary t = 0 := by decide

theorem envelopeTexts_contentType : ∀ t ∈ envelopeTexts, occ (lit "Content-Type") t = 0 := by
  decide

theorem entries_eq_nil (m : Message) (hn : m.numAttachments = 0) : m.entries = [] := by
  unfold Message.numAttachments mapLen at hn
  unfold Message.entries
  cases h : m.Attachments with
  | none => rfl
  | some mp =>
    rw [h] at hn
    exact List.length_eq_zero.mp hn

/-- Occurrences of p in a message without attachments. -/
theorem occ_Bytes_plain {p : Str} (hs : Seps p) (ht : ∀ t ∈ envelopeTexts, occ p t = 0)
    (m : Message) (hp : Heap) (date : Str) (ρ : Sched) (η : List Sched)
    (hn : m.numAttachments = 0) (hfree : m.FreeOf p hp date) :
    occ p (m.Bytes hp date ρ η).1
      = occ p (lit "Content-Type: ") + occ p (lit "; charset=utf-8\n\n") := by
  obtain ⟨⟨hFrom, hTo, hCc, hSubject, hBody⟩, hDate, hType, _⟩ := hfree
  have h0 : ¬ m.numAttachments > 0 := by omega
  have hb := occ_bodyPart hs m []
  rw [List.append_nil] at hb
  have hnil : occ p ([] : Str) = 0 := by simp only [occ]
  rw [Bytes_fst, if_neg h0, occ_envelope hs ht m date hFrom hDate hTo hCc hSubject, hb,
    hType, hBody, hnil]
  omega

theorem freeOf_delimiter (m : Message) (hp : Heap) (date : Str)
    (h : m.FreeOf boundary hp date) : m.FreeOf delimiter hp date := by
  have hb : boundary ≠ [] := by decide
  have key : ∀ x : Str, occ boundary x = 0 → occ delimiter x = 0 :=
    fun x hx => occ_eq_zero_of_suffix (lit "--") boundary x hb hx
  obtain ⟨⟨h1, h3, h4, h5, h7⟩, h2, h6, h8⟩ := h
  refine ⟨⟨key _ h1, fun a ha => key _ (h3 a ha), fun a ha => key _ (h4 a ha),
    key _ h5, key _ h7⟩, key _ h2, key _ h6, ?_⟩
  intro e he
  obtain ⟨e1, e2, e3⟩ := h8 e he
  exact ⟨key _ e1, key _ e2, fun kv hkv => ⟨key _ (e3 kv hkv).1, key _ (e3 kv hkv).2⟩⟩

theorem partsClean_of_freeOf (m : Message) (p : Str) (hp : Heap) (date : Str)
    (h : m.FreeOf p hp date) : PartsClean p hp (m.entries.map (fun e => e.2)) := by
  intro a ha
  rw [List.mem_map] at ha
  obtain ⟨e, he, rfl⟩ := ha
  exact h.2.2.2 e he

theorem attach_returned (m : Message) (mp : GoMap Attachment) (d f : Str) (i : Bool)
    (h : Option Nat) (hm : m.Attachments = some mp) :
    m.attach ⟨d, none⟩ f i h
      = Outcome.returned none
          { m with Attachments := some (mapSet mp f
              { Filename := f, Data := d, Inline := i, Headers := h }) } := by
  simp only [Message.attach, ReadAll, hm]

theorem attach_failed (m : Message) (r : Reader) (f : Str) (i : Bool) (h : Option Nat)
    (e : IOError) (hr : r.err = some e) :
    m.attach r f i h = Outcome.returned (some e) m := by
  simp only [Message.attach, ReadAll, hr]

theorem attach_nil (m : Message) (d f : Str) (i : Bool) (h : Option Nat)
    (hm : m.Attachments = none) : m.attach ⟨d, none⟩ f i h = Outcome.panicked := by
  simp only [Message.attach, ReadAll, hm]

theorem add_eq_attach (m : Message) (i : Bool) (r : Reader) (f : Str) (h : Option Nat) :
    m.add i r f h = m.attach r f i h := by
  cases i <;> rfl

theorem mem_encodeStd_fin : ∀ i : Fin 64, encChar i.val ∈ encodeStd := by decide

theorem b64Encode_alphabet_aux :
    ∀ (n : Nat) (l : Str), l.length ≤ n →
      ∀ c ∈ b64Encode l, c ∈ encodeStd ∨ c = padChar := by
  have key : ∀ i : Nat, encChar (i % 64) ∈ encodeStd ∨ encChar (i % 64) = padChar :=
    fun i => Or.inl (mem_encodeStd_fin ⟨i % 64, Nat.mod_lt _ (by norm_num)⟩)
  intro n
  induction n with
  | zero =>
    intro l hl c hc
    have : l = [] := List.length_eq_zero.mp (Nat.le_zero.mp hl)
    subst this
    simp [b64Encode] at hc
  | succ n ih =>
    intro l hl c hc
    match l, hl, hc with
    | [], _, hc => simp [b64Encode] at hc
    | [a], _, hc =>
      simp only [b64Encode, List.mem_cons, List.mem_singleton, List.not_mem_nil, or_false] at hc
      rcases hc with h | h | h | h
      · exact h ▸ key _
      · exact h ▸ key _
      · exact Or.inr h
      · exact Or.inr h
    | [a, b], _, hc =>
      simp only [b64Encode, List.mem_cons, List.mem_singleton, List.not_mem_nil, or_false] at hc
      rcases hc with h | h | h | h
      · exact h ▸ key _
      · exact h ▸ key _
      · exact h ▸ key _
      · exact Or.inr h
    | a :: b :: c' :: rest, hl, hc =>
      have hrest : rest.length ≤ n := by
        simp only [List.length_cons] at hl
        omega
      simp only [b64Encode, List.mem_cons] at hc
      rcases hc with h | h | h | h | h
      · exact h ▸ key _
      · exact h ▸ key _
      · exact h ▸ key _
      · exact h ▸ key _
      · exact ih rest hrest c h

/-! ## Helper lemmas: Tolist on slices -/

theorem getElem?_read (s : Slice) (mem : Arrays) (j : Nat) :
    (s.read mem)[j]? = if j < s.len then (mem s.arr)[s.off + j]? else none := by
  unfold Slice.read
  rw [List.getElem?_take]
  split
  · rw [List.getElem?_drop]
  · rfl

theorem length_read (s : Slice) (mem : Arrays) (h : s.Valid mem) :
    (s.read mem).length = s.len := by
  unfold Slice.read
  rw [List.length_take, List.length_drop]
  have := h.1
  have := h.2
  omega

/-- Slices whose cells hold the same values have the same elements. -/
theorem read_congr (s : Slice) (mem mem' : Arrays)
    (h : ∀ i, s.Holds s.arr i → (mem' s.arr)[i]? = (mem s.arr)[i]?) :
    s.read mem' = s.read mem := by
  apply List.ext_getElem?
  intro j
  rw [getElem?_read, getElem?_read]
  split
  · apply h
    exact ⟨rfl, by omega, by omega⟩
  · rfl

theorem elem_eq (s : Slice) (mem : Arrays) (h : s.Valid mem) (i : Nat) (hi : i < s.len) :
    (s.read mem)[i]? = some (s.elem mem i) := by
  rw [getElem?_read, if_pos hi]
  unfold Slice.elem
  have := h.1
  have := h.2
  have hlt : s.off + i < (mem s.arr).length := by omega
  rw [List.getD_eq_getElem?_getD, List.getElem?_eq_getElem hlt]
  rfl

theorem kept_lt (rc : Recipients) (fresh0 : Nat)
    (hfresh : rc.To.arr < fresh0 ∧ rc.Cc.arr < fresh0 ∧ rc.Bcc.arr < fresh0) (a i : Nat)
    (h : Kept rc a i) : a < fresh0 := by
  rcases h with h | h | h
  · rw [h.1]; exact hfresh.1
  · rw [h.1]; exact hfresh.2.1
  · rw [h.1]; exact hfresh.2.2

theorem inv_goAppend (rc : Recipients) (mem : Arrays) (fresh0 : Nat)
    (hfresh : rc.To.arr < fresh0 ∧ rc.Cc.arr < fresh0 ∧ rc.Bcc.arr < fresh0)
    (hun : Unaliased rc) (st : Slice × Arrays × Nat) (acc : List Str) (x : Str)
    (h : Inv rc mem fresh0 st acc) :
    Inv rc mem fresh0 (goAppend st.2.1 st.2.2 st.1 x) (acc ++ [x]) := by
  obtain ⟨s, m', f'⟩ := st
  obtain ⟨h1, h2, h3, h4, h5, h6, h7⟩ := h
  simp only at h1 h2 h3 h4 h5 h6 h7
  have hlen : acc.length = s.len := by
    rw [← h3]
    exact length_read s m' ⟨h1, h2⟩
  unfold goAppend
  by_cases hc : s.len < s.cap
  · simp only [if_pos hc]
    refine ⟨by simp only; omega, ?_, ?_, h4, h5, ?_, ?_⟩
    · simp only [storeCell, if_true, List.length_set]
      exact h2
    · apply List.ext_getElem?
      intro j
      rw [getElem?_read]
      simp only [storeCell, if_true]
      have hacc : ∀ j, acc[j]? = if j < s.len then (m' s.arr)[s.off + j]? else none := by
        intro j
        rw [← h3, getElem?_read]
      by_cases hj : j < s.len
      · have hj1 : j < s.len + 1 := by omega
        have hne : s.off + s.len ≠ s.off + j := by omega
        rw [if_pos hj1, List.getElem?_set_ne hne, List.getElem?_append_left (by omega), hacc,
          if_pos hj]
      · by_cases hj2 : j = s.len
        · subst hj2
          have hlt : s.off + s.len < (m' s.arr).length := by omega
          rw [if_pos (by omega), List.getElem?_set_self hlt,
            List.getElem?_append_right (by omega), hlen]
          simp
        · rw [if_neg (by omega), List.getElem?_append_right (by omega)]
          have : 0 < j - acc.length := by omega
          rw [List.getElem?_eq_none]
          simp only [List.length_singleton]
          omega
    · intro a i hk
      simp only [storeCell]
      by_cases ha : a = s.arr
      · rw [if_pos ha]
        have hne : s.off + s.len ≠ i := by
          intro hi
          have hlt := kept_lt rc fresh0 hfresh a i hk
          rw [ha] at hlt
          obtain ⟨e1, e2, e3, e4⟩ := h7 hlt
          have hsp := hun i (by omega) (by omega)
          rw [ha, e1] at hk
          rcases hk with hk | hk | hk
          · have := hk.2.2
            omega
          · exact hsp.1 hk
          · exact hsp.2 hk
        rw [List.getElem?_set_ne hne]
        exact h6 a i hk
      · rw [if_neg ha]
        exact h6 a i hk
    · intro hlt
      obtain ⟨e1, e2, e3, e4⟩ := h7 hlt
      exact ⟨e1, e2, e3, by simp only; omega⟩
  · simp only [if_neg hc]
    have hcap : s.len = s.cap := by omega
    have hread : (s.read m').length = s.len := length_read s m' ⟨h1, h2⟩
    refine ⟨?_, ?_, ?_, by simp only; omega, by simp only; omega, ?_, ?_⟩
    · simp only
      split <;> omega
    · simp only [if_true, List.length_append, List.length_replicate, hread,
        List.length_singleton, Nat.zero_add]
      split <;> omega
    · simp only [Slice.read, if_true, List.drop_zero]
      rw [show List.take s.len (List.drop s.off (m' s.arr)) = acc from h3]
      have : s.len + 1 = (acc ++ [x]).length := by
        rw [List.length_append, hlen, List.length_singleton]
      rw [this, List.take_left']
      rfl
    · intro a i hk
      have hlt := kept_lt rc fresh0 hfresh a i hk
      have hne : a ≠ f' := by omega
      simp only [if_neg hne]
      exact h6 a i hk
    · intro hlt
      simp only at hlt
      omega

theorem drop_of_getElem? {α : Type} (l : List α) (i : Nat) (x : α) (h : l[i]? = some x) :
    l.drop i = x :: l.drop (i + 1) := by
  obtain ⟨hlt, hx⟩ := List.getElem?_eq_some_iff.mp h
  rw [List.drop_eq_getElem_cons hlt, hx]

theorem inv_appendRange (rc : Recipients) (mem : Arrays) (fresh0 : Nat)
    (hfresh : rc.To.arr < fresh0 ∧ rc.Cc.arr < fresh0 ∧ rc.Bcc.arr < fresh0)
    (hun : Unaliased rc) (src : Slice) (hsrc : src.Valid mem)
    (hkept : ∀ i, src.Holds src.arr i → Kept rc src.arr i) (n : Nat) :
    ∀ (i : Nat) (st : Slice × Arrays × Nat) (acc : List Str), i + n = src.len →
      Inv rc mem fresh0 st acc →
      Inv rc mem fresh0 (appendRange src n i st) (acc ++ (src.read mem).drop i) := by
  induction n with
  | zero =>
    intro i st acc hn h
    have hlen := length_read src mem hsrc
    have : (src.read mem).drop i = [] := by
      apply List.drop_eq_nil_of_le
      omega
    rw [this, List.append_nil]
    exact h
  | succ n ih =>
    intro i st acc hn h
    obtain ⟨s, m', f'⟩ := st
    have hi : i < src.len := by omega
    have hcell : (m' src.arr)[src.off + i]? = (mem src.arr)[src.off + i]? :=
      h.2.2.2.2.2.1 src.arr (src.off + i) (hkept _ ⟨rfl, by omega, by omega⟩)
    have hx : src.elem m' i = src.elem mem i := by
      unfold Slice.elem
      rw [List.getD_eq_getElem?_getD, List.getD_eq_getElem?_getD, hcell]
    have hdrop := drop_of_getElem? _ i _ (elem_eq src mem hsrc i hi)
    have hstep := inv_goAppend rc mem fresh0 hfresh hun (s, m', f') acc (src.elem m' i) h
    have hrec := ih (i + 1) _ _ (by omega) hstep
    rw [hx, List.append_assoc, List.singleton_append, ← hdrop] at hrec
    simp only [appendRange]
    rw [hx]
    exact hrec

/-- When no element of Cc or Bcc lies in the spare capacity of To, the two
loops of Tolist leave a slice with the elements of To, Cc and Bcc, in this
order, and the three slices keep their elements. -/
theorem appendRange_unaliased (rc : Recipients) (mem : Arrays) (fresh : Nat)
    (hTo : rc.To.Valid mem) (hCc : rc.Cc.Valid mem) (hBcc : rc.Bcc.Valid mem)
    (hfresh : rc.To.arr < fresh ∧ rc.Cc.arr < fresh ∧ rc.Bcc.arr < fresh)
    (hun : Unaliased rc) :
    Inv rc mem fresh
      (appendRange rc.Bcc rc.Bcc.len 0 (appendRange rc.Cc rc.Cc.len 0 (rc.To, mem, fresh)))
      (rc.To.read mem ++ rc.Cc.read mem ++ rc.Bcc.read mem) := by
  have h0 : Inv rc mem fresh (rc.To, mem, fresh) (rc.To.read mem) :=
    ⟨hTo.1, hTo.2, rfl, Nat.le_refl _, hfresh.1, fun _ _ _ => rfl,
      fun _ => ⟨rfl, rfl, rfl, Nat.le_refl _⟩⟩
  have h1 := inv_appendRange rc mem fresh hfresh hun rc.Cc hCc
    (fun i hi => Or.inr (Or.inl hi)) rc.Cc.len 0 _ _ (Nat.zero_add _) h0
  have h2 := inv_appendRange rc mem fresh hfresh hun rc.Bcc hBcc
    (fun i hi => Or.inr (Or.inr hi)) rc.Bcc.len 0 _ _ (Nat.zero_add _) h1
  simpa only [List.drop_zero] using h2

/-- When no element of Cc or Bcc lies in the spare capacity of To, Tolist
returns the elements of To, then of Cc, then of Bcc, and leaves the message as
it was. -/
theorem Tolist_unaliased (m : Message) (rc : Recipients) (mem : Arrays) (fresh : Nat)
    (hTo : rc.To.Valid mem) (hCc : rc.Cc.Valid mem) (hBcc : rc.Bcc.Valid mem)
    (hfresh : rc.To.arr < fresh ∧ rc.Cc.arr < fresh ∧ rc.Bcc.arr < fresh)
    (hun : Unaliased rc) :
    (m.Tolist rc mem fresh).1 = rc.To.read mem ++ rc.Cc.read mem ++ rc.Bcc.read mem ∧
    (m.Tolist rc mem fresh).2.1 = m.load rc mem := by
  have h := appendRange_unaliased rc mem fresh hTo hCc hBcc hfresh hun
  obtain ⟨_, _, h3, _, _, h6, _⟩ := h
  refine ⟨h3, ?_⟩
  simp only [Message.Tolist, Message.load]
  rw [read_congr rc.To _ _ (fun i hi => h6 _ i (Or.inl hi)),
    read_congr rc.Cc _ _ (fun i hi => h6 _ i (Or.inr (Or.inl hi))),
    read_congr rc.Bcc _ _ (fun i hi => h6 _ i (Or.inr (Or.inr hi)))]

/-- With such slices Send hands to the transport the concatenation of To, Cc
and Bcc and Bytes of the message given. -/
theorem Send_unaliased {σ A ε : Type} (SendMail : σ → MailCall A → Option ε × σ) (s : σ)
    (addr : Str) (auth : A) (m : Message) (rc : Recipients) (mem : Arrays) (fresh : Nat)
    (hp : Heap) (date : Str) (ρ : Sched) (η : List Sched) (hm : m.load rc mem = m)
    (hTo : rc.To.Valid mem) (hCc : rc.Cc.Valid mem) (hBcc : rc.Bcc.Valid mem)
    (hfresh : rc.To.arr < fresh ∧ rc.Cc.arr < fresh ∧ rc.Bcc.arr < fresh)
    (hun : Unaliased rc) :
    (Send SendMail s addr auth m rc mem fresh hp date ρ η).1
      = SendMail s { addr := addr, auth := auth, sender := m.From,
                     recipients := m.To ++ m.Cc ++ m.Bcc,
                     msg := (m.Bytes hp date ρ η).1 } := by
  obtain ⟨h1, h2⟩ := Tolist_unaliased m rc mem fresh hTo hCc hBcc hfresh hun
  have hTo' : rc.To.read mem = m.To := congrArg Message.To hm
  have hCc' : rc.Cc.read mem = m.Cc := congrArg Message.Cc hm
  have hBcc' : rc.Bcc.read mem = m.Bcc := congrArg Message.Bcc hm
  simp only [Send]
  rw [h1, h2, hm, hTo', hCc', hBcc']

/-- The example of the specification, on three literals: To = [a],
Cc = [a, b], Bcc = [b] gives [a, a, b, b]. -/
theorem Tolist_literals (m : Message) :
    (m.Tolist literals literalArrays 3).1 = [lit "a", lit "a", lit "b", lit "b"] := by
  have h := (Tolist_unaliased m literals literalArrays 3 (by decide) (by decide) (by decide)
    (by decide) (by
      intro j h1 h2
      simp only [literals] at h1 h2
      omega)).1
  rw [h]
  decide

/-! ## The claims -/

/-- C1, the code at the failing input To = all[:1], Cc = [dave@x],
Bcc = all[1:] with all = [alice@x, bob@x, carol@x]: the concatenation of To, Cc
and Bcc is [alice@x, dave@x, bob@x, carol@x], but Tolist appends into the
backing array of To, over the elements of Bcc, returns
[alice@x, dave@x, dave@x, dave@x] and leaves Bcc = [dave@x, dave@x]. -/
theorem Tolist_overwrites_shared_array :
    overlappedMessage.load overlapped sharedArrays = overlappedMessage ∧
    overlappedMessage.To ++ overlappedMessage.Cc ++ overlappedMessage.Bcc
      = [lit "alice@x", lit "dave@x", lit "bob@x", lit "carol@x"] ∧
    (overlappedMessage.Tolist overlapped sharedArrays 2).1
      = [lit "alice@x", lit "dave@x", lit "dave@x", lit "dave@x"] ∧
    (overlappedMessage.Tolist overlapped sharedArrays 2).2.1.Bcc
      = [lit "dave@x", lit "dave@x"] := by
  decide

/-- C2, counterexample: a message with two attachments and no boundary token
in any of its texts has five delimiters, not four; and with one attachment and
a delimiter in the content type of the body it has four, not three. -/
theorem two_attachments_five_delimiters :
    (twoParts.numAttachments = 2 ∧ twoParts.FreeOf boundary emptyHeap sampleDate ∧
      occ delimiter (twoParts.Bytes emptyHeap sampleDate [] []).1 = 5 ∧
      occ delimiter (twoParts.Bytes emptyHeap sampleDate [] []).1
        ≠ twoParts.numAttachments + 2) ∧
    (typedPart.numAttachments = 1 ∧ typedPart.FieldsFreeOf boundary ∧
      typedPart.PartsFreeOf boundary emptyHeap ∧
      occ delimiter (typedPart.Bytes emptyHeap sampleDate [] []).1 = 4 ∧
      occ delimiter (typedPart.Bytes emptyHeap sampleDate [] []).1
        ≠ typedPart.numAttachments + 2) := by
  decide

/-- C2, amended: in a message with n attachments, n at least 1, whose envelope
fields, formatted date, body, content type of the body, attachment file names,
attachment headers and emitted attachment bodies do not contain the boundary
token, the delimiter (two dashes and the boundary) occurs 2 n + 1 times in
Bytes: the opening delimiter and one before and one after every attachment. -/
theorem delimiter_count (m : Message) (hp : Heap) (date : Str) (ρ : Sched) (η : List Sched)
    (hn : m.numAttachments ≥ 1) (hfree : m.FreeOf boundary hp date) :
    occ delimiter (m.Bytes hp date ρ η).1 = 2 * m.numAttachments + 1 := by
  have hd := freeOf_delimiter m hp date hfree
  obtain ⟨⟨hFrom, hTo, hCc, hSubject, hBody⟩, hDate, hType, _⟩ := hd
  exact occ_Bytes_delimiter m hp date ρ η hn hFrom hDate hTo hCc hSubject hType hBody
    (partsClean_of_freeOf m delimiter hp date (freeOf_delimiter m hp date hfree))

/-- C2, witness of the amended claim: the message with one attachment. -/
theorem delimiter_count_witness :
    onePart.numAttachments ≥ 1 ∧ onePart.FreeOf boundary emptyHeap sampleDate ∧
    occ delimiter (onePart.Bytes emptyHeap sampleDate [1] [[2]]).1
      = 2 * onePart.numAttachments + 1 :=
  ⟨by decide, by decide,
    delimiter_count onePart emptyHeap sampleDate [1] [[2]] (by decide) (by decide)⟩

/-- C3, counterexample: a message without attachments whose From, To, Cc,
Subject and Body contain neither the boundary token nor Content-Type, and
whose output contains the boundary token, from the content type of the body. -/
theorem content_type_carries_boundary :
    typedMessage.numAttachments = 0 ∧ typedMessage.FieldsFreeOf boundary ∧
    typedMessage.FieldsFreeOf (lit "Content-Type") ∧
    occ boundary (typedMessage.Bytes emptyHeap sampleDate [] []).1 = 1 := by
  decide

/-- C3, amended: for a message without attachments whose From, To, Cc, Subject,
Body, content type of the body and formatted date contain neither the boundary
token nor the text Content-Type, Bytes contains no boundary token and no
delimiter, and the text Content-Type exactly once, in the header line of the
body, Content-Type: BodyContentType; charset=utf-8. -/
theorem plain_message_headers (m : Message) (hp : Heap) (date : Str) (ρ : Sched)
    (η : List Sched) (hn : m.numAttachments = 0) (hb : m.FreeOf boundary hp date)
    (hc : m.FreeOf (lit "Content-Type") hp date) :
    occ boundary (m.Bytes hp date ρ η).1 = 0 ∧
    occ delimiter (m.Bytes hp date ρ η).1 = 0 ∧
    occ (lit "Content-Type") (m.Bytes hp date ρ η).1 = 1 ∧
    occ (lit "Content-Type") (m.envelope date) = 0 ∧
    (m.Bytes hp date ρ η).1
      = m.envelope date ++ (lit "Content-Type: " ++ m.BodyContentType
          ++ lit "; charset=utf-8\n" ++ (lit "\n" ++ m.Body ++ lit "\n")) := by
  have h0 : ¬ m.numAttachments > 0 := by omega
  have e1 := occ_Bytes_plain seps_boundary envelopeTexts_boundary m hp date ρ η hn hb
  have e2 := occ_Bytes_plain seps_delimiter envelopeTexts_delimiter m hp date ρ η hn
    (freeOf_delimiter m hp date hb)
  have e3 := occ_Bytes_plain seps_contentType envelopeTexts_contentType m hp date ρ η hn hc
  have d1 : occ boundary (lit "Content-Type: ") + occ boundary (lit "; charset=utf-8\n\n") = 0 := by
    decide
  have d2 : occ delimiter (lit "Content-Type: ") + occ delimiter (lit "; charset=utf-8\n\n")
      = 0 := by decide
  have d3 : occ (lit "Content-Type") (lit "Content-Type: ")
      + occ (lit "Content-Type") (lit "; charset=utf-8\n\n") = 1 := by decide
  have d4 : lit "; charset=utf-8\n\n" = lit "; charset=utf-8\n" ++ lit "\n" := by decide
  obtain ⟨⟨hFrom, hTo, hCc, hSubject, hBody⟩, hDate, hType, _⟩ := hc
  have e4 := occ_envelope seps_contentType envelopeTexts_contentType m date hFrom hDate hTo
    hCc hSubject []
  rw [List.append_nil] at e4
  refine ⟨e1.trans d1, e2.trans d2, e3.trans d3, e4, ?_⟩
  rw [Bytes_fst, if_neg h0, bodyPart, d4]
  simp only [List.append_assoc]

/-- C3, witness of the amended claim: the test message without attachments. -/
theorem plain_message_headers_witness :
    testMessage.numAttachments = 0 ∧ testMessage.FreeOf boundary emptyHeap sampleDate ∧
    testMessage.FreeOf (lit "Content-Type") emptyHeap sampleDate ∧
    occ (lit "Content-Type") (testMessage.Bytes emptyHeap sampleDate [] []).1 = 1 :=
  ⟨by decide, by decide, by decide,
    (plain_message_headers testMessage emptyHeap sampleDate [] [] (by decide) (by decide)
      (by decide)).2.2.1⟩

/-- C4: the bytes of an attachment that is not inline are its header lines,
one blank line, and the padded base64 encoding of its data in the standard
alphabet, whatever the data and the headers of the caller; decoding that body
gives back the data. -/
theorem attachment_base64_roundtrip (a : Attachment) (hp : Heap) (ρ : Sched)
    (hi : a.Inline = false) :
    (a.Bytes hp ρ).1 = a.headerBlock hp ρ ++ lit "\n" ++ b64Encode a.Data ∧
    b64Decode (b64Encode a.Data) = some a.Data ∧
    (b64Encode a.Data).length = EncodedLen a.Data.length ∧
    ∀ c ∈ b64Encode a.Data, c ∈ encodeStd ∨ c = padChar := by
  refine ⟨?_, b64Decode_b64Encode a.Data, length_b64Encode_aux _ _ (Nat.le_refl _),
    b64Encode_alphabet_aux _ _ (Nat.le_refl _)⟩
  rw [Attachment_Bytes_fst, Attachment.body, hi]
  simp only [Bool.false_eq_true, if_false, List.append_assoc]

/-- C4, witness: the file attachment with the data hello, and the empty data. -/
theorem attachment_base64_roundtrip_witness :
    sampleFile.Inline = false ∧
    b64Decode (b64Encode sampleFile.Data) = some sampleFile.Data ∧
    b64Encode sampleFile.Data = lit "aGVsbG8=" ∧
    b64Decode (b64Encode { sampleFile with Data := [] }.Data) = some [] :=
  ⟨rfl, (attachment_base64_roundtrip sampleFile emptyHeap [] rfl).2.1, by decide,
    (attachment_base64_roundtrip { sampleFile with Data := [] } emptyHeap [] rfl).2.1⟩

/-- C5: the bytes of an inline attachment are its header lines, one blank line
and the data as they are: the output ends with a line feed and the data, and
its length is the length of the header block plus 1 plus the length of the
data. -/
theorem inline_attachment_raw (a : Attachment) (hp : Heap) (ρ : Sched)
    (hi : a.Inline = true) :
    (a.Bytes hp ρ).1 = a.headerBlock hp ρ ++ lit "\n" ++ a.Data ∧
    (lit "\n" ++ a.Data) <:+ (a.Bytes hp ρ).1 ∧
    (a.Bytes hp ρ).1.length = (a.headerBlock hp ρ).length + 1 + a.Data.length := by
  have h : (a.Bytes hp ρ).1 = a.headerBlock hp ρ ++ (lit "\n" ++ a.Data) := by
    rw [Attachment_Bytes_fst, Attachment.body, if_pos hi]
  refine ⟨?_, ?_, ?_⟩
  · rw [h, List.append_assoc]
  · rw [h]
    exact List.suffix_append _ _
  · rw [h, lit_nl]
    simp only [List.length_append, List.length_cons, List.length_nil]
    omega

/-- C5, witness: the inline attachment with the data world. -/
theorem inline_attachment_raw_witness :
    sampleInline.Inline = true ∧
    (lit "\n" ++ lit "world") <:+ (sampleInline.Bytes emptyHeap [1, 0]).1 :=
  ⟨rfl, (inline_attachment_raw sampleInline emptyHeap [1, 0] rfl).2.1⟩

/-- C7, counterexample: on the zero value of Message, whose attachment map is
nil, AttachReader with the source of the test does not return: the write to
the nil map panics. -/
theorem AttachReader_nil_map_panics :
    zeroMessage.AttachReader ⟨lit "Testing is the future", none⟩ (lit "Message") none
      = Outcome.panicked := by
  decide

/-- C7, amended: for every message whose attachment map is not nil (as after
NewMessage and NewHTMLMessage), every file name f, header map h and source
that reads to the bytes d without error, AttachReader returns no error and
leaves the map with the entry f holding the data d, the file name f, inline
false and the headers h; InlineReader does the same with inline true. -/
theorem AttachReader_stores (m : Message) (mp : GoMap Attachment) (d f : Str)
    (h : Option Nat) (hm : m.Attachments = some mp) :
    (∃ mp', m.AttachReader ⟨d, none⟩ f h
        = Outcome.returned none { m with Attachments := some mp' } ∧
      mapGet mp' f = some { Filename := f, Data := d, Inline := false, Headers := h }) ∧
    (∃ mp', m.InlineReader ⟨d, none⟩ f h
        = Outcome.returned none { m with Attachments := some mp' } ∧
      mapGet mp' f = some { Filename := f, Data := d, Inline := true, Headers := h }) :=
  ⟨⟨_, attach_returned m mp d f false h hm, getEntry_setEntry_self _ _ _⟩,
    ⟨_, attach_returned m mp d f true h hm, getEntry_setEntry_self _ _ _⟩⟩

/-- C7, witness of the amended claim: the test TestAttachReader, source
Testing is the future, file name Message. -/
theorem AttachReader_stores_witness :
    testMessage.Attachments = some emptyMap ∧
    ∃ mp', testMessage.AttachReader ⟨lit "Testing is the future", none⟩ (lit "Message") none
        = Outcome.returned none { testMessage with Attachments := some mp' } ∧
      mapGet mp' (lit "Message")
        = some { Filename := lit "Message", Data := lit "Testing is the future",
                 Inline := false, Headers := none } :=
  ⟨rfl, (AttachReader_stores testMessage emptyMap (lit "Testing is the future")
    (lit "Message") none rfl).1⟩

/-- C8: two additions under the same file name, by any mix of AttachReader and
InlineReader, from sources that read to d1 and then d2 without error.  On a
map that is not nil both calls return without error; and after the two calls
the map has exactly one entry for the file name, it holds d2 with the inline
flag and the headers of the second call, and the map has as many entries as
after the first call. -/
theorem second_addition_replaces (m : Message) (f d1 d2 : Str) (i1 i2 : Bool)
    (h1 h2 : Option Nat) :
    (m.Attachments ≠ none →
      ∃ m1 m2, m.add i1 ⟨d1, none⟩ f h1 = Outcome.returned none m1 ∧
        m1.add i2 ⟨d2, none⟩ f h2 = Outcome.returned none m2) ∧
    ∀ e1 e2 m1 m2, m.add i1 ⟨d1, none⟩ f h1 = Outcome.returned e1 m1 →
      m1.add i2 ⟨d2, none⟩ f h2 = Outcome.returned e2 m2 →
      e1 = none ∧ e2 = none ∧
      m2.entries.filter (fun e => decide (e.1 = f))
        = [(f, { Filename := f, Data := d2, Inline := i2, Headers := h2 })] ∧
      (∃ mp2, m2.Attachments = some mp2 ∧
        mapGet mp2 f = some { Filename := f, Data := d2, Inline := i2, Headers := h2 }) ∧
      m2.numAttachments = m1.numAttachments := by
  rw [add_eq_attach]
  cases hm : m.Attachments with
  | none =>
    refine ⟨fun h => absurd rfl h, ?_⟩
    intro e1 e2 m1 m2 hfirst
    rw [attach_nil m d1 f i1 h1 hm] at hfirst
    exact Outcome.noConfusion hfirst
  | some mp =>
    have r1 := attach_returned m mp d1 f i1 h1 hm
    have r2 := attach_returned
      { m with Attachments := some (mapSet mp f
          { Filename := f, Data := d1, Inline := i1, Headers := h1 }) }
      (mapSet mp f { Filename := f, Data := d1, Inline := i1, Headers := h1 }) d2 f i2 h2 rfl
    refine ⟨fun _ => ⟨_, _, r1, by rw [add_eq_attach]; exact r2⟩, ?_⟩
    intro e1 e2 m1 m2 hfirst hsecond
    rw [r1] at hfirst
    injection hfirst with he1 hm1
    subst hm1
    rw [add_eq_attach, r2] at hsecond
    injection hsecond with he2 hm2
    subst hm2
    refine ⟨he1.symm, he2.symm, ?_, ⟨_, rfl, getEntry_setEntry_self _ _ _⟩, ?_⟩
    · apply filter_key_eq _ (mapSet _ _ _).nodup
      exact (mem_mapSet_iff _ _ _ _).mpr (Or.inl rfl)
    · have hkey : f ∈ (setEntry mp.entries f
          { Filename := f, Data := d1, Inline := i1, Headers := h1 }).map Prod.fst :=
        (mem_keys_setEntry _ _ _ _).mpr (Or.inl rfl)
      simp only [Message.numAttachments, mapLen, mapSet]
      rw [length_setEntry, if_pos hkey]

/-- C8, witness: AttachReader and then InlineReader under the file name
Message on the test message both return without error. -/
theorem second_addition_replaces_witness :
    testMessage.Attachments ≠ none ∧
    ∃ m1 m2, testMessage.add false ⟨lit "first", none⟩ (lit "Message") none
        = Outcome.returned none m1 ∧
      m1.add true ⟨lit "second", none⟩ (lit "Message") (some 3)
        = Outcome.returned none m2 :=
  ⟨by decide, (second_addition_replaces testMessage (lit "Message") (lit "first")
    (lit "second") false true none (some 3)).1 (by decide)⟩

/-- C9: when the read of the source fails, AttachReader and InlineReader
return that error and leave the message as it was: the attachment map has the
same entries (nothing is added or replaced under the file name, and the bytes
read before the failure are not stored), so Tolist and Bytes give what they
gave before the call. -/
theorem failed_read_changes_nothing (m : Message) (r : Reader) (f : Str) (h : Option Nat)
    (e : IOError) (hr : r.err = some e) :
    ∃ m1 m2, m.AttachReader r f h = Outcome.returned (some e) m1 ∧
      m.InlineReader r f h = Outcome.returned (some e) m2 ∧
      m1 = m ∧ m2 = m ∧ m1.Attachments = m.Attachments ∧ m2.Attachments = m.Attachments ∧
      (∀ (rc : Recipients) (mem : Arrays) (fresh : Nat),
        m1.Tolist rc mem fresh = m.Tolist rc mem fresh ∧
        m2.Tolist rc mem fresh = m.Tolist rc mem fresh) ∧
      ∀ (hp : Heap) (date : Str) (ρ : Sched) (η : List Sched),
        m1.Bytes hp date ρ η = m.Bytes hp date ρ η ∧
        m2.Bytes hp date ρ η = m.Bytes hp date ρ η :=
  ⟨m, m, attach_failed m r f false h e hr, attach_failed m r f true h e hr, rfl, rfl, rfl, rfl,
    fun _ _ _ => ⟨rfl, rfl⟩, fun _ _ _ _ => ⟨rfl, rfl⟩⟩

/-- C9, witness: a source that fails with error 5 after the bytes par, on the
message with one attachment. -/
theorem failed_read_changes_nothing_witness :
    (⟨lit "par", some 5⟩ : Reader).err = some 5 ∧
    ∃ m1 m2, onePart.AttachReader ⟨lit "par", some 5⟩ (lit "a.txt") none
        = Outcome.returned (some 5) m1 ∧
      onePart.InlineReader ⟨lit "par", some 5⟩ (lit "a.txt") none
        = Outcome.returned (some 5) m2 ∧ m1 = onePart ∧ m2 = onePart :=
  ⟨rfl, by
    obtain ⟨m1, m2, e1, e2, e3, e4, _⟩ := failed_read_changes_nothing onePart
      ⟨lit "par", some 5⟩ (lit "a.txt") none 5 rfl
    exact ⟨m1, m2, e1, e2, e3, e4⟩⟩

theorem Bytes_suffix (m : Message) (hp : Heap) (date : Str) (ρ : Sched) (η : List Sched)
    (hn : m.numAttachments = 0) : bodyPart m <:+ (m.Bytes hp date ρ η).1 := by
  have h0 : ¬ m.numAttachments > 0 := by omega
  rw [Bytes_fst, if_neg h0]
  exact List.suffix_append _ _

/-- C10: NewMessage gives a message with the subject and the body given, the
content type text/plain and an empty attachment map, and NewHTMLMessage the
same with text/html; so Bytes of the new message ends with the header line
Content-Type: text/plain; charset=utf-8 (text/html for NewHTMLMessage), a
blank line, the body and a line feed. -/
theorem new_message_fields (s b : Str) :
    ((NewMessage s b).Subject = s ∧ (NewMessage s b).Body = b ∧
      (NewMessage s b).BodyContentType = lit "text/plain" ∧
      (NewMessage s b).Attachments = some emptyMap ∧ (NewMessage s b).numAttachments = 0) ∧
    ((NewHTMLMessage s b).Subject = s ∧ (NewHTMLMessage s b).Body = b ∧
      (NewHTMLMessage s b).BodyContentType = lit "text/html" ∧
      (NewHTMLMessage s b).Attachments = some emptyMap ∧
      (NewHTMLMessage s b).numAttachments = 0) ∧
    ∀ (hp : Heap) (date : Str) (ρ : Sched) (η : List Sched),
      (lit "Content-Type: text/plain; charset=utf-8\n\n" ++ b ++ lit "\n")
        <:+ ((NewMessage s b).Bytes hp date ρ η).1 ∧
      (lit "Content-Type: text/html; charset=utf-8\n\n" ++ b ++ lit "\n")
        <:+ ((NewHTMLMessage s b).Bytes hp date ρ η).1 := by
  refine ⟨⟨rfl, rfl, rfl, rfl, rfl⟩, ⟨rfl, rfl, rfl, rfl, rfl⟩, ?_⟩
  intro hp date ρ η
  have p1 : lit "Content-Type: text/plain; charset=utf-8\n\n"
      = lit "Content-Type: " ++ lit "text/plain" ++ lit "; charset=utf-8\n\n" := by decide
  have p2 : lit "Content-Type: text/html; charset=utf-8\n\n"
      = lit "Content-Type: " ++ lit "text/html" ++ lit "; charset=utf-8\n\n" := by decide
  rw [p1, p2]
  exact ⟨Bytes_suffix (NewMessage s b) hp date ρ η rfl,
    Bytes_suffix (NewHTMLMessage s b) hp date ρ η rfl⟩

/-! ## Helper lemmas: parts, additions, reachable messages -/

theorem writeParts_fragments (as : List Attachment) (η : List Sched) (hp : Heap) :
    (writeParts as η ([], hp)).1 = (fragments as η hp).flatten := by
  induction as generalizing η hp with
  | nil => rfl
  | cons a rest ih =>
    rw [writeParts_cons_eq, ih, fragments, List.flatten_cons]
    simp only [List.append_assoc]

theorem length_fragments (as : List Attachment) (η : List Sched) (hp : Heap) :
    (fragments as η hp).length = as.length := by
  induction as generalizing η hp with
  | nil => rfl
  | cons a rest ih => simp only [fragments, List.length_cons, ih]

theorem fragments_end (as : List Attachment) (η : List Sched) (hp : Heap) (h : as ≠ []) :
    closeMark <:+ (fragments as η hp).flatten := by
  induction as generalizing η hp with
  | nil => exact absurd rfl h
  | cons a rest ih =>
    rw [fragments, List.flatten_cons]
    cases rest with
    | nil =>
      simp only [fragments, List.flatten_nil, List.append_nil]
      exact List.suffix_append _ _
    | cons b rest' =>
      exact (ih η.tail _ (List.cons_ne_nil _ _)).trans (List.suffix_append _ _)

theorem visited_perm (m : Message) (ρ : Sched) :
    (m.visited ρ).Perm (m.entries.map (fun e => e.2)) :=
  (rangeOrder_perm ρ m.entries).map _

/-- What a call of attach that returns leaves in the map. -/
theorem attach_cases (m m' : Message) (r : Reader) (f : Str) (i : Bool) (h : Option Nat)
    (e : Option IOError) (hret : m.attach r f i h = Outcome.returned e m') :
    (e ≠ none ∧ m' = m) ∨
    (e = none ∧ r.err = none ∧ ∃ mp, m.Attachments = some mp ∧
      m' = { m with Attachments := some (mapSet mp f
        { Filename := f, Data := r.data, Inline := i, Headers := h }) }) := by
  obtain ⟨d, err⟩ := r
  cases err with
  | some e' =>
    simp only [Message.attach, ReadAll] at hret
    injection hret with h1 h2
    exact Or.inl ⟨by rw [← h1]; exact Option.some_ne_none _, h2.symm⟩
  | none =>
    cases hm : m.Attachments with
    | none =>
      rw [attach_nil m d f i h hm] at hret
      exact Outcome.noConfusion hret
    | some mp =>
      rw [attach_returned m mp d f i h hm] at hret
      injection hret with h1 h2
      exact Or.inr ⟨h1.symm, rfl, mp, rfl, h2.symm⟩

theorem entries_mk (m : Message) (mp : GoMap Attachment) :
    ({ m with Attachments := some mp } : Message).entries = mp.entries := rfl

/-- Every entry that attach leaves in the map was there before or is the new
entry, stored under its file name. -/
theorem attach_keeps_names (m m' : Message) (r : Reader) (f : Str) (i : Bool)
    (h : Option Nat) (e : Option IOError) (hret : m.attach r f i h = Outcome.returned e m')
    (hm : ∀ x ∈ m.entries, x.2.Filename = x.1) : ∀ x ∈ m'.entries, x.2.Filename = x.1 := by
  rcases attach_cases m m' r f i h e hret with ⟨_, rfl⟩ | ⟨_, _, mp, hmp, rfl⟩
  · exact hm
  · intro x hx
    rw [entries_mk] at hx
    rcases mem_setEntry _ _ _ _ hx with hx | hx
    · rw [hx]
    · apply hm
      unfold Message.entries
      rw [hmp]
      exact hx

theorem reachable_names (m : Message) (hr : Reachable m) :
    ∀ x ∈ m.entries, x.2.Filename = x.1 := by
  induction hr with
  | plain s b => intro x hx; exact absurd hx (List.not_mem_nil _)
  | html s b => intro x hx; exact absurd hx (List.not_mem_nil _)
  | assign m sender tos ccs bccs s b t _ ih => exact ih
  | reader m m' i r f h e _ hret ih =>
    rw [add_eq_attach] at hret
    exact attach_keeps_names m m' r f i h e hret ih
  | attachFile m m' fs hp fresh file e _ hret ih =>
    unfold Message.Attach at hret
    cases hf : fs file with
    | error err =>
      rw [hf] at hret
      injection hret with _ h2
      rw [← h2]
      exact ih
    | ok fin =>
      rw [hf] at hret
      exact attach_keeps_names m m' fin _ false _ e hret ih
  | inlineFile m m' fs hp fresh file e _ hret ih =>
    unfold Message.Inline at hret
    cases hf : fs file with
    | error err =>
      rw [hf] at hret
      injection hret with _ h2
      rw [← h2]
      exact ih
    | ok fin =>
      rw [hf] at hret
      exact attach_keeps_names m m' fin _ true _ e hret ih


theorem terminator_suffix (P X : Str) :
    (lit "--" ++ boundary ++ lit "--") <:+ P ++ (X ++ closeMark) ++ lit "--" := by
  have hclose : closeMark = lit "\n" ++ (lit "--" ++ boundary) := by decide
  refine ⟨P ++ X ++ lit "\n", ?_⟩
  rw [hclose]
  simp only [List.append_assoc]

/-! ## The claims, continued -/

/-- C11: Bytes begins with the header lines in this order: From, Date with the
formatted time, To with the addresses joined by commas, Cc with the addresses
joined by commas when and only when Cc is not empty, Subject, and
MIME-Version: 1.0.  The To line is written also when To is empty, and there is
no Cc line when Cc is empty. -/
theorem Bytes_starts_with_envelope (m : Message) (hp : Heap) (date : Str) (ρ : Sched)
    (η : List Sched) :
    (∃ rest, (m.Bytes hp date ρ η).1
      = (lit "From: " ++ m.From ++ lit "\n") ++ (lit "Date: " ++ date ++ lit "\n")
        ++ (lit "To: " ++ join (lit ",") m.To ++ lit "\n")
        ++ (if m.Cc = [] then [] else lit "Cc: " ++ join (lit ",") m.Cc ++ lit "\n")
        ++ (lit "Subject: " ++ m.Subject ++ lit "\n") ++ lit "MIME-Version: 1.0\n" ++ rest) ∧
    (∃ rest, (({ m with To := [], Cc := [] } : Message).Bytes hp date ρ η).1
      = (lit "From: " ++ m.From ++ lit "\n") ++ (lit "Date: " ++ date ++ lit "\n")
        ++ lit "To: \n" ++ (lit "Subject: " ++ m.Subject ++ lit "\n")
        ++ lit "MIME-Version: 1.0\n" ++ rest) := by
  have henv : ∀ m : Message, m.envelope date
      = (lit "From: " ++ m.From ++ lit "\n") ++ (lit "Date: " ++ date ++ lit "\n")
        ++ (lit "To: " ++ join (lit ",") m.To ++ lit "\n")
        ++ (if m.Cc = [] then [] else lit "Cc: " ++ join (lit ",") m.Cc ++ lit "\n")
        ++ (lit "Subject: " ++ m.Subject ++ lit "\n") ++ lit "MIME-Version: 1.0\n" := by
    intro m
    unfold Message.envelope
    by_cases hc : m.Cc = []
    · simp [hc]
    · have hlen : m.Cc.length > 0 := List.length_pos.mpr hc
      simp [hc, hlen]
  have hpre : ∀ m : Message, ∃ rest, (m.Bytes hp date ρ η).1 = m.envelope date ++ rest := by
    intro m
    rw [Bytes_fst]
    by_cases hn : m.numAttachments > 0
    · rw [if_pos hn]
      exact ⟨_, rfl⟩
    · rw [if_neg hn]
      exact ⟨_, rfl⟩
  constructor
  · obtain ⟨rest, hrest⟩ := hpre m
    exact ⟨rest, by rw [hrest, henv]⟩
  · obtain ⟨rest, hrest⟩ := hpre { m with To := [], Cc := [] }
    refine ⟨rest, ?_⟩
    have hto : lit "To: \n" = lit "To: " ++ lit "\n" := by decide
    rw [hrest, henv, hto]
    simp [join]

/-- Send makes one call of the transport, with the address, the credentials,
m.From, the list that m.Tolist() returns and the bytes that m.Bytes() returns
for the message as Tolist has left it, and returns the result of that call. -/
theorem Send_eq {σ A ε : Type} (SendMail : σ → MailCall A → Option ε × σ) (s : σ)
    (addr : Str) (auth : A) (m : Message) (rc : Recipients) (mem : Arrays) (fresh : Nat)
    (hp : Heap) (date : Str) (ρ : Sched) (η : List Sched) :
    (Send SendMail s addr auth m rc mem fresh hp date ρ η).1
      = SendMail s { addr := addr, auth := auth, sender := m.From,
                     recipients := (m.Tolist rc mem fresh).1,
                     msg := ((m.Tolist rc mem fresh).2.1.Bytes hp date ρ η).1 } :=
  rfl

/-- C13, the code at the failing input To = all[:1], Cc = all[2:3],
Bcc = [secret@x] with all = [alice@x, bob@x, carol@x]: Send makes one call of
the transport, and the message of that call is not Bytes of the message given
but Bytes of the message with Cc = [secret@x], which has the line
Cc: secret@x: Tolist has written the Bcc address over the element of Cc. -/
theorem Send_forwards_overwritten_message :
    leakMessage.load leakRecipients leakArrays = leakMessage ∧
    ((Send (recording (fun _ => (none : Option Nat))) [] (lit "smtp.example.com:587") 0
        leakMessage leakRecipients leakArrays 2 emptyHeap sampleDate [] []).1.2.map
      (fun c => (c.recipients, c.msg)))
      = [([lit "alice@x", lit "carol@x", lit "secret@x"],
          (({ leakMessage with Cc := [lit "secret@x"] } : Message).Bytes emptyHeap sampleDate
            [] []).1)] ∧
    (({ leakMessage with Cc := [lit "secret@x"] } : Message).Bytes emptyHeap sampleDate [] []).1
      ≠ (leakMessage.Bytes emptyHeap sampleDate [] []).1 ∧
    occ (lit "Cc: secret@x\n")
      (({ leakMessage with Cc := [lit "secret@x"] } : Message).Bytes emptyHeap sampleDate
        [] []).1 = 1 := by
  decide

/-- C14: for a message with attachments Bytes is the envelope lines, the
multipart header with the boundary and the opening delimiter line, the body
part, then for every attachment of the map exactly once, in the order of the
loop, its delimiter line, its bytes and the closing delimiter, and at the end
two dashes; so the output ends with the terminator, the boundary between two
pairs of dashes. -/
theorem Bytes_with_attachments (m : Message) (hp : Heap) (date : Str) (ρ : Sched)
    (η : List Sched) (hn : m.numAttachments > 0) :
    (m.Bytes hp date ρ η).1
      = m.envelope date
        ++ (lit "Content-Type: multipart/mixed; boundary=" ++ boundary ++ lit "\n")
        ++ (lit "--" ++ boundary ++ lit "\n")
        ++ (lit "Content-Type: " ++ m.BodyContentType ++ lit "; charset=utf-8\n\n" ++ m.Body
            ++ lit "\n")
        ++ (fragments (m.visited ρ) η hp).flatten ++ lit "--" ∧
    (m.visited ρ).Perm (m.entries.map (fun e => e.2)) ∧
    (fragments (m.visited ρ) η hp).length = m.numAttachments ∧
    (lit "--" ++ boundary ++ lit "--") <:+ (m.Bytes hp date ρ η).1 := by
  have hshape : (m.Bytes hp date ρ η).1
      = m.envelope date
        ++ (lit "Content-Type: multipart/mixed; boundary=" ++ boundary ++ lit "\n")
        ++ (lit "--" ++ boundary ++ lit "\n")
        ++ (lit "Content-Type: " ++ m.BodyContentType ++ lit "; charset=utf-8\n\n" ++ m.Body
            ++ lit "\n")
        ++ (fragments (m.visited ρ) η hp).flatten ++ lit "--" := by
    rw [Bytes_fst, if_pos hn, writeParts_fragments, multipartHeader, bodyPart]
    simp only [List.append_assoc]
  refine ⟨hshape, visited_perm m ρ, ?_, ?_⟩
  · rw [length_fragments, length_visited]
  · have hne : m.visited ρ ≠ [] := by
      intro h0
      have := length_visited m ρ
      rw [h0] at this
      simp only [List.length_nil] at this
      omega
    obtain ⟨X, hX⟩ := fragments_end (m.visited ρ) η hp hne
    rw [hshape, ← hX]
    exact terminator_suffix _ X

/-- C14, witness: the message with one attachment. -/
theorem Bytes_with_attachments_witness :
    onePart.numAttachments > 0 ∧
    (lit "--" ++ boundary ++ lit "--") <:+ (onePart.Bytes emptyHeap sampleDate [] []).1 :=
  ⟨by decide, (Bytes_with_attachments onePart emptyHeap sampleDate [] [] (by decide)).2.2.2⟩

/-- C16: a call of AttachReader or InlineReader for the file name f that
returns without error changes the entry of f in the attachment map and nothing
else: From, To, Cc, Bcc, Subject, Body and BodyContentType are the same, and
the map holds under every other file name the attachment it held before, with
the same data, inline flag and headers. -/
theorem addition_frame (m m' : Message) (i : Bool) (r : Reader) (f : Str) (h : Option Nat)
    (hok : m.add i r f h = Outcome.returned none m') :
    m'.From = m.From ∧ m'.To = m.To ∧ m'.Cc = m.Cc ∧ m'.Bcc = m.Bcc ∧
    m'.Subject = m.Subject ∧ m'.Body = m.Body ∧ m'.BodyContentType = m.BodyContentType ∧
    ∃ mp mp', m.Attachments = some mp ∧ m'.Attachments = some mp' ∧
      (∀ k, k ≠ f → mapGet mp' k = mapGet mp k) ∧
      (∀ e, e.1 ≠ f → (e ∈ mp'.entries ↔ e ∈ mp.entries)) := by
  rw [add_eq_attach] at hok
  rcases attach_cases m m' r f i h none hok with ⟨hne, _⟩ | ⟨_, _, mp, hmp, rfl⟩
  · exact absurd rfl hne
  · refine ⟨rfl, rfl, rfl, rfl, rfl, rfl, rfl, mp, _, hmp, rfl, ?_, ?_⟩
    · intro k hk
      exact getEntry_setEntry_ne _ _ _ _ hk
    · intro e he
      rw [mem_mapSet_iff]
      constructor
      · rintro (h1 | h1)
        · exact absurd (by rw [h1]) he
        · exact h1.1
      · intro h1
        exact Or.inr ⟨h1, he⟩

/-- C16, witness: InlineReader of b.txt on the message that holds a.txt. -/
theorem addition_frame_witness :
    onePart.add true ⟨lit "world", none⟩ (lit "b.txt") none = Outcome.returned none twoParts ∧
    twoParts.From = onePart.From ∧
    ∃ mp mp', onePart.Attachments = some mp ∧ twoParts.Attachments = some mp' ∧
      mapGet mp' (lit "a.txt") = mapGet mp (lit "a.txt") := by
  have h := addition_frame onePart twoParts true ⟨lit "world", none⟩ (lit "b.txt") none
    (by decide)
  obtain ⟨h1, _, _, _, _, _, _, mp, mp', e1, e2, e3, _⟩ := h
  exact ⟨by decide, h1, mp, mp', e1, e2, e3 _ (by decide)⟩

/-- Bytes does not read Bcc: two messages that differ only in Bcc give the same
bytes and the same heap. -/
theorem Bytes_Bcc_irrelevant (m : Message) (bcc : List Str) (hp : Heap) (date : Str)
    (ρ : Sched) (η : List Sched) :
    ({ m with Bcc := bcc } : Message).Bytes hp date ρ η = m.Bytes hp date ρ η :=
  rfl

/-- C17, the code at two failing inputs.  With To = all[:1], Cc = [dave@x] and
Bcc = all[1:], the list that Tolist returns contains neither bob@x nor carol@x,
the two Bcc addresses.  With To = all[:1], Cc = all[2:3] and Bcc = [secret@x],
Bytes of the message given does not contain secret@x, and Bytes of the message
as Tolist leaves it does. -/
theorem Tolist_loses_and_leaks_Bcc :
    overlappedMessage.load overlapped sharedArrays = overlappedMessage ∧
    leakMessage.load leakRecipients leakArrays = leakMessage ∧
    overlappedMessage.Bcc = [lit "bob@x", lit "carol@x"] ∧
    lit "bob@x" ∉ (overlappedMessage.Tolist overlapped sharedArrays 2).1 ∧
    lit "carol@x" ∉ (overlappedMessage.Tolist overlapped sharedArrays 2).1 ∧
    leakMessage.Bcc = [lit "secret@x"] ∧
    occ (lit "secret@x") (leakMessage.Bytes emptyHeap sampleDate [] []).1 = 0 ∧
    occ (lit "secret@x")
      ((leakMessage.Tolist leakRecipients leakArrays 2).2.1.Bytes emptyHeap sampleDate
        [] []).1 = 1 := by
  decide

/-- C18: in every message reachable from NewMessage or NewHTMLMessage by
calls of AttachReader, InlineReader, Attach and Inline, returning an error or
not (and by assignments to the envelope fields), every entry of the attachment
map is stored under its own file name. -/
theorem filename_invariant (m : Message) (hr : Reachable m) :
    ∀ k a, (k, a) ∈ m.entries → a.Filename = k :=
  fun k a h => reachable_names m hr (k, a) h

/-- C18, witness: the test message after Attach of dir/email_test.go. -/
theorem filename_invariant_witness :
    Reachable attachedMessage ∧
    ∀ k a, (k, a) ∈ attachedMessage.entries → a.Filename = k := by
  have h0 : Reachable testMessage :=
    Reachable.assign (NewMessage (lit "Hi") (lit "this is the body")) (lit "to@example.com")
      [lit "to@example.com"] [] [] (lit "Hi") (lit "this is the body") (lit "text/plain")
      (Reachable.plain _ _)
  have h1 : Reachable attachedMessage :=
    Reachable.attachFile testMessage attachedMessage sampleFS emptyHeap 0
      (lit "dir/email_test.go") none h0 (by decide)
  exact ⟨h1, filename_invariant attachedMessage h1⟩


/-! ## Helper lemmas: a second serialization -/

theorem goMap_ext {V : Type} (a b : GoMap V) (h : a.entries = b.entries) : a = b := by
  cases a
  cases b
  cases h
  rfl

theorem setEntry_eq_self {V : Type} (l : List (Str × V)) (hl : (l.map Prod.fst).Nodup)
    (k : Str) (v : V) (h : (k, v) ∈ l) : setEntry l k v = l := by
  induction l with
  | nil => exact absurd h (List.not_mem_nil _)
  | cons e rest ih =>
    obtain ⟨k', v'⟩ := e
    rw [List.map_cons, List.nodup_cons] at hl
    by_cases hk : k' = k
    · subst hk
      rcases List.mem_cons.mp h with h1 | h1
      · obtain ⟨_, hv⟩ := Prod.mk.inj h1
        simp only [setEntry, if_true, hv]
      · exact absurd (List.mem_map_of_mem Prod.fst h1) hl.1
    · rcases List.mem_cons.mp h with h1 | h1
      · exact absurd (Prod.mk.inj h1).1.symm hk
      · simp only [setEntry, if_neg hk, ih hl.2 h1]

theorem mapSet_eq_self {V : Type} (m : GoMap V) (k : Str) (v : V) (h : (k, v) ∈ m.entries) :
    mapSet m k v = m :=
  goMap_ext _ _ (setEntry_eq_self m.entries m.nodup k v h)

theorem finalHeaders_of_start (a : Attachment) (hp hp' : Heap)
    (h : a.startHeaders hp' = a.startHeaders hp) : a.finalHeaders hp' = a.finalHeaders hp := by
  unfold Attachment.finalHeaders
  rw [h]

theorem fixed_mem_finalHeaders (a : Attachment) (hp : Heap) (e : Str × Str)
    (he : e ∈ fixedHeaders a) : e ∈ (a.finalHeaders hp).entries :=
  (mem_finalHeaders_iff a hp e).mpr (List.mem_append_left _ he)

/-- The fixed assignments change nothing in a map that has them already. -/
theorem finalHeaders_idem (a : Attachment) (hp hp' : Heap)
    (h : a.startHeaders hp' = a.finalHeaders hp) : a.finalHeaders hp' = a.finalHeaders hp := by
  have hfix := fixed_mem_finalHeaders a hp
  by_cases hi : a.Inline = true
  · have h1 := hfix (lit "Content-Type", lit "message/rfc822") (by simp [fixedHeaders, hi])
    have h2 := hfix (lit "Content-Disposition",
      lit "inline; filename=\"" ++ a.Filename ++ lit "\"") (by simp [fixedHeaders, hi])
    have e : a.finalHeaders hp'
        = mapSet (mapSet (a.finalHeaders hp) (lit "Content-Type") (lit "message/rfc822"))
            (lit "Content-Disposition")
            (lit "inline; filename=\"" ++ a.Filename ++ lit "\"") := by
      conv_lhs => unfold Attachment.finalHeaders
      simp only [h, if_pos hi]
    rw [e, mapSet_eq_self _ _ _ h1, mapSet_eq_self _ _ _ h2]
  · have h1 := hfix (lit "Content-Type", lit "application/octet-stream")
      (by simp [fixedHeaders, hi])
    have h2 := hfix (lit "Content-Tranfer-Encoding", lit "base64") (by simp [fixedHeaders, hi])
    have h3 := hfix (lit "Content-Disposition",
      lit "attachment; filename=\"" ++ a.Filename ++ lit "\"") (by simp [fixedHeaders, hi])
    have e : a.finalHeaders hp'
        = mapSet (mapSet (mapSet (a.finalHeaders hp) (lit "Content-Type")
              (lit "application/octet-stream"))
            (lit "Content-Tranfer-Encoding") (lit "base64"))
            (lit "Content-Disposition")
            (lit "attachment; filename=\"" ++ a.Filename ++ lit "\"") := by
      conv_lhs => unfold Attachment.finalHeaders
      simp only [h, if_neg hi]
    rw [e, mapSet_eq_self _ _ _ h1, mapSet_eq_self _ _ _ h2, mapSet_eq_self _ _ _ h3]

theorem Attachment_Bytes_of_final (a : Attachment) (hp hp' : Heap) (ρ : Sched)
    (h : a.finalHeaders hp' = a.finalHeaders hp) : (a.Bytes hp' ρ).1 = (a.Bytes hp ρ).1 := by
  rw [Attachment_Bytes_fst, Attachment_Bytes_fst, Attachment.headerBlock,
    Attachment.headerBlock, h]

theorem Attachment_Bytes_snd (a : Attachment) (hp : Heap) (ρ : Sched) :
    (a.Bytes hp ρ).2 = match a.Headers with
      | none => hp
      | some r => heapSet hp r (a.finalHeaders hp) := rfl

theorem writeParts_snd_cons (a : Attachment) (rest : List Attachment) (η : List Sched)
    (buf : Str) (hp : Heap) :
    (writeParts (a :: rest) η (buf, hp)).2
      = (writeParts rest η.tail ([], (a.Bytes hp (η.headD [])).2)).2 := by
  simp only [writeParts]
  rw [writeParts_buf]

theorem unshared_cons (a : Attachment) (rest : List Attachment) (h : Unshared (a :: rest)) :
    Unshared rest ∧
    ∀ r, a.Headers = some r → ∀ b ∈ rest, b.Headers ≠ some r := by
  unfold Unshared at h ⊢
  cases ha : a.Headers with
  | none =>
    rw [List.filterMap_cons_none ha] at h
    exact ⟨h, fun r hr => by cases hr⟩
  | some r0 =>
    rw [List.filterMap_cons_some ha, List.nodup_cons] at h
    refine ⟨h.2, ?_⟩
    intro r hr b hb hbr
    injection hr with hr
    subst hr
    exact h.1 (List.mem_filterMap.mpr ⟨b, hb, hbr⟩)

/-- The loop leaves alone the header maps of the other attachments. -/
theorem Attachment_Bytes_snd_other (a b : Attachment) (hp : Heap) (ρ : Sched) (r : Nat)
    (hb : b.Headers = some r) (hne : a.Headers ≠ some r) :
    b.startHeaders (a.Bytes hp ρ).2 = b.startHeaders hp := by
  rw [Attachment_Bytes_snd]
  unfold Attachment.startHeaders
  rw [hb]
  cases ha : a.Headers with
  | none => rfl
  | some r0 =>
    have hr : r ≠ r0 := by
      intro h
      apply hne
      rw [ha, h]
    simp only [heapSet, if_neg hr]

/-- With the same schedules and no header map shared, the loop writes the same
bytes on a heap that holds, for every attachment, the header map that a run on
the first heap leaves for it. -/
theorem writeParts_again (as : List Attachment) (η : List Sched) (h1 h2 : Heap)
    (hu : Unshared as)
    (hfin : ∀ a ∈ as, ∀ r, a.Headers = some r → h2 r = a.finalHeaders h1) :
    (writeParts as η ([], h2)).1 = (writeParts as η ([], h1)).1 := by
  induction as generalizing η h1 h2 with
  | nil => rfl
  | cons a rest ih =>
    obtain ⟨hrest, hother⟩ := unshared_cons a rest hu
    have hfinal : a.finalHeaders h2 = a.finalHeaders h1 := by
      cases ha : a.Headers with
      | none =>
        apply finalHeaders_of_start
        unfold Attachment.startHeaders
        rw [ha]
      | some r =>
        apply finalHeaders_idem
        unfold Attachment.startHeaders
        rw [ha]
        exact hfin a (List.mem_cons_self _ _) r ha
    have hout := Attachment_Bytes_of_final a h1 h2 (η.headD []) hfinal
    rw [writeParts_cons_eq, writeParts_cons_eq, hout]
    congr 3
    apply ih η.tail _ _ hrest
    intro b hb r hbr
    have hab : a.Headers ≠ some r := by
      intro ha
      exact hother r ha b hb hbr
    have e2 := Attachment_Bytes_snd_other a b h2 (η.headD []) r hbr hab
    have e1 := Attachment_Bytes_snd_other a b h1 (η.headD []) r hbr hab
    have e2' : (a.Bytes h2 (η.headD [])).2 r = h2 r := by
      unfold Attachment.startHeaders at e2
      rw [hbr] at e2
      exact e2
    rw [e2', hfin b (List.mem_cons_of_mem _ hb) r hbr]
    exact (finalHeaders_of_start b h1 _ e1).symm

theorem writeParts_snd_other (as : List Attachment) (η : List Sched) (hp : Heap) (r : Nat)
    (hr : ∀ a ∈ as, a.Headers ≠ some r) : (writeParts as η ([], hp)).2 r = hp r := by
  induction as generalizing η hp with
  | nil => rfl
  | cons a rest ih =>
    rw [writeParts_snd_cons, ih _ _ (fun b hb => hr b (List.mem_cons_of_mem _ hb)),
      Attachment_Bytes_snd]
    have ha := hr a (List.mem_cons_self _ _)
    cases hh : a.Headers with
    | none => rfl
    | some r0 =>
      have hne : r ≠ r0 := by
        intro h
        apply ha
        rw [hh, h]
      simp only [heapSet, if_neg hne]

/-- After the loop the header map of every attachment is the map it was
written with, when no map is shared. -/
theorem writeParts_snd_final (as : List Attachment) (η : List Sched) (hp : Heap)
    (hu : Unshared as) :
    ∀ a ∈ as, ∀ r, a.Headers = some r → (writeParts as η ([], hp)).2 r = a.finalHeaders hp := by
  induction as generalizing η hp with
  | nil => intro a ha; exact absurd ha (List.not_mem_nil _)
  | cons a0 rest ih =>
    obtain ⟨hrest, hother⟩ := unshared_cons a0 rest hu
    intro a ha r har
    rw [writeParts_snd_cons]
    rcases List.mem_cons.mp ha with h0 | h0
    · subst h0
      rw [writeParts_snd_other _ _ _ r (fun b hb => hother r har b hb), Attachment_Bytes_snd,
        har]
      simp only [heapSet, if_true]
    · have hne : a0.Headers ≠ some r := fun h => hother r h a h0 har
      rw [ih η.tail _ hrest a h0 r har]
      exact finalHeaders_of_start a hp _
        (Attachment_Bytes_snd_other a0 a hp (η.headD []) r har hne)

theorem Bytes_snd (m : Message) (hp : Heap) (date : Str) (ρ : Sched) (η : List Sched) :
    (m.Bytes hp date ρ η).2
      = if m.numAttachments > 0 then (writeParts (m.visited ρ) η ([], hp)).2 else hp := by
  by_cases h : m.numAttachments > 0
  · simp only [Message.Bytes, if_pos h, Message.visited]
    rw [writeParts_buf]
  · simp only [Message.Bytes, if_neg h]

theorem unshared_visited (m : Message) (ρ : Sched)
    (hu : Unshared (m.entries.map (fun e => e.2))) : Unshared (m.visited ρ) := by
  unfold Unshared at hu ⊢
  exact (((visited_perm m ρ).filterMap _).nodup_iff).mpr hu

/-- A second serialization with the same date and the same schedules gives the
same bytes when no two attachments share a header map. -/
theorem Bytes_again (m : Message) (hp : Heap) (date : Str) (ρ : Sched) (η : List Sched)
    (hu : Unshared (m.entries.map (fun e => e.2))) :
    (m.Bytes (m.Bytes hp date ρ η).2 date ρ η).1 = (m.Bytes hp date ρ η).1 := by
  rw [Bytes_fst, Bytes_fst m hp, Bytes_snd]
  by_cases h : m.numAttachments > 0
  · simp only [if_pos h]
    rw [writeParts_again (m.visited ρ) η hp _ (unshared_visited m ρ hu)
      (writeParts_snd_final (m.visited ρ) η hp (unshared_visited m ρ hu))]
  · simp only [if_neg h]

/-- Without attachments neither the heap nor the schedules matter. -/
theorem Bytes_plain_eq (m : Message) (hp : Heap) (date : Str) (ρ : Sched) (η : List Sched)
    (hn : m.numAttachments = 0) :
    m.Bytes hp date ρ η = (m.envelope date ++ bodyPart m, hp) := by
  have h0 : ¬ m.numAttachments > 0 := by omega
  apply Prod.ext
  · rw [Bytes_fst, if_neg h0]
  · rw [Bytes_snd, if_neg h0]


/-! ## Helper lemmas: additions in a row -/

theorem insertAt_map {α β : Type} (f : α → β) (i : Nat) (x : α) (l : List α) :
    (insertAt i x l).map f = insertAt i (f x) (l.map f) := by
  induction l generalizing i with
  | nil => cases i <;> rfl
  | cons y ys ih =>
    cases i with
    | zero => rfl
    | succ i => simp only [insertAt, List.map_cons, ih]

theorem rangeOrder_map {α β : Type} (f : α → β) (ρ : Sched) (l : List α) :
    (rangeOrder ρ l).map f = rangeOrder ρ (l.map f) := by
  induction l generalizing ρ with
  | nil => rfl
  | cons x xs ih => simp only [rangeOrder, List.map_cons, insertAt_map, ih]

theorem visited_eq (m : Message) (ρ : Sched) :
    m.visited ρ = rangeOrder ρ (m.entries.map (fun e => e.2)) :=
  rangeOrder_map _ ρ m.entries

theorem setEntry_new {V : Type} (l : List (Str × V)) (k : Str) (v : V)
    (h : k ∉ l.map Prod.fst) : setEntry l k v = l ++ [(k, v)] := by
  induction l with
  | nil => rfl
  | cons e rest ih =>
    obtain ⟨k', v'⟩ := e
    rw [List.map_cons, List.mem_cons, not_or] at h
    have hk : ¬ k' = k := fun hk => h.1 hk.symm
    simp only [setEntry, if_neg hk, ih h.2, List.cons_append]

/-- Successful additions under new, pairwise distinct file names put their
attachments at the end of the list of entries, in the order of the calls. -/
theorem addAll_entries (cs : List Addition) (m : Message) (mp : GoMap Attachment)
    (hm : m.Attachments = some mp) (hok : ∀ c ∈ cs, c.reader.err = none)
    (hd : (cs.map (fun c => c.filename)).Nodup)
    (hnew : ∀ c ∈ cs, c.filename ∉ mp.entries.map Prod.fst) :
    ∃ m', m.addAll cs = some m' ∧
      m'.entries = mp.entries ++ cs.map (fun c => (c.filename, c.stored)) := by
  induction cs generalizing m mp with
  | nil =>
    refine ⟨m, rfl, ?_⟩
    unfold Message.entries
    rw [hm, List.map_nil, List.append_nil]
  | cons c cs ih =>
    rw [List.map_cons, List.nodup_cons] at hd
    have hc := hok c (List.mem_cons_self _ _)
    have hread : c.reader = ⟨c.reader.data, none⟩ := by
      cases hr : c.reader with
      | mk d e =>
        rw [hr] at hc
        simp only at hc
        rw [hc]
    have hret := attach_returned m mp c.reader.data c.filename c.inline c.headers hm
    rw [← hread] at hret
    have hnew' : ∀ c' ∈ cs, c'.filename ∉ (mapSet mp c.filename c.stored).entries.map Prod.fst := by
      intro c' hc' hmem
      rcases (mem_keys_setEntry _ _ _ _).mp hmem with h | h
      · exact hd.1 (h ▸ List.mem_map_of_mem (fun c => c.filename) hc')
      · exact hnew c' (List.mem_cons_of_mem _ hc') h
    obtain ⟨m', hm', he⟩ := ih { m with Attachments := some (mapSet mp c.filename c.stored) }
      (mapSet mp c.filename c.stored) rfl (fun c' hc' => hok c' (List.mem_cons_of_mem _ hc'))
      hd.2 hnew'
    refine ⟨m', ?_, ?_⟩
    · simp only [Message.addAll, add_eq_attach, hret]
      exact hm'
    · rw [he]
      simp only [mapSet, setEntry_new _ _ _ (hnew c (List.mem_cons_self _ _)), List.map_cons,
        List.append_assoc, List.singleton_append]

theorem numAttachments_of_entries (m' : Message) (l : List (Str × Attachment))
    (h : m'.entries = l) : m'.numAttachments = l.length := by
  rw [← h]
  unfold Message.numAttachments Message.entries mapLen
  cases m'.Attachments <;> rfl


/-- C12, counterexample: with the same date, a second serialization of the
message with two attachments that visits the attachments in the other order,
a second serialization of the message with one attachment that visits its
headers in another order, and a second serialization, with the same orders, of
the message whose two attachments share a header map, all differ from the
first. -/
theorem second_serialization_differs :
    (twoParts.Bytes (twoParts.Bytes emptyHeap sampleDate [] []).2 sampleDate [1] []).1
      ≠ (twoParts.Bytes emptyHeap sampleDate [] []).1 ∧
    (onePart.Bytes (onePart.Bytes emptyHeap sampleDate [] []).2 sampleDate [] [[1]]).1
      ≠ (onePart.Bytes emptyHeap sampleDate [] []).1 ∧
    (sharedParts.Bytes (sharedParts.Bytes emptyHeap sampleDate [] []).2 sampleDate [] []).1
      ≠ (sharedParts.Bytes emptyHeap sampleDate [] []).1 := by
  decide

/-- C12, amended: for a fixed date, Bytes of a message without attachments is
the same byte sequence on every heap and for every order of iteration, and
leaves the heap as it is; and for a message whose attachments share no header
map, a second serialization that visits the attachments and their headers in
the same orders as the first gives the same byte sequence, on the heap in
which the first has written the fixed headers. -/
theorem Bytes_deterministic_up_to_order (m : Message) (hp : Heap) (date : Str) (ρ : Sched)
    (η : List Sched) (hu : Unshared (m.entries.map (fun e => e.2))) :
    (m.Bytes (m.Bytes hp date ρ η).2 date ρ η).1 = (m.Bytes hp date ρ η).1 ∧
    (m.numAttachments = 0 →
      ∀ (hp' : Heap) (ρ' : Sched) (η' : List Sched),
        (m.Bytes hp' date ρ' η').1 = (m.Bytes hp date ρ η).1 ∧
        (m.Bytes hp' date ρ' η').2 = hp') := by
  refine ⟨Bytes_again m hp date ρ η hu, ?_⟩
  intro hn hp' ρ' η'
  rw [Bytes_plain_eq m hp' date ρ' η' hn, Bytes_plain_eq m hp date ρ η hn]
  exact ⟨rfl, rfl⟩

/-- C12, witness of the amended claim: the message after Attach, whose one
attachment has its own header map, with two headers of the caller in it. -/
theorem Bytes_deterministic_up_to_order_witness :
    Unshared (attachedMessage.entries.map (fun e => e.2)) ∧
    (attachedMessage.Bytes
        (attachedMessage.Bytes (fun _ => mapSet (mapSet emptyMap (lit "X-A") (lit "1"))
          (lit "X-B") (lit "2")) sampleDate [] [[2, 1]]).2 sampleDate [] [[2, 1]]).1
      = (attachedMessage.Bytes (fun _ => mapSet (mapSet emptyMap (lit "X-A") (lit "1"))
          (lit "X-B") (lit "2")) sampleDate [] [[2, 1]]).1 :=
  ⟨by decide, (Bytes_deterministic_up_to_order attachedMessage _ sampleDate [] [[2, 1]]
    (by decide)).1⟩

/-- C15, counterexample: a.txt and then b.txt are added to the test message;
a run of Bytes whose loop visits b.txt first writes the part of b.txt before
the part of a.txt. -/
theorem parts_not_in_insertion_order :
    testMessage.addAll orderedAdds = some twoParts ∧
    (twoParts.entries.map (fun e => e.1)) = [lit "a.txt", lit "b.txt"] ∧
    (twoParts.visited [1]).map (fun a => a.Filename) = [lit "b.txt", lit "a.txt"] ∧
    (twoParts.Bytes emptyHeap sampleDate [1] []).1
      = twoParts.envelope sampleDate ++ multipartHeader ++ bodyPart twoParts
        ++ (openLine ++ (sampleInline.Bytes emptyHeap []).1 ++ closeMark)
        ++ (openLine ++ (sampleFile.Bytes emptyHeap []).1 ++ closeMark) ++ lit "--" := by
  decide

/-- C15, amended: after successful additions under new, pairwise distinct file
names f1, ..., fk, Bytes writes the part of every attachment exactly once, in
the order in which its loop visits the map: a permutation of the attachments,
which need not be the order of insertion; every permutation is the order of
some run, the order of insertion among them. -/
theorem parts_in_visiting_order (m : Message) (mp : GoMap Attachment) (cs : List Addition)
    (hm : m.Attachments = some mp) (hk : cs ≠ [])
    (hok : ∀ c ∈ cs, c.reader.err = none)
    (hd : (cs.map (fun c => c.filename)).Nodup)
    (hnew : ∀ c ∈ cs, c.filename ∉ mp.entries.map Prod.fst) :
    ∃ m', m.addAll cs = some m' ∧
      m'.entries = mp.entries ++ cs.map (fun c => (c.filename, c.stored)) ∧
      (∀ (hp : Heap) (date : Str) (ρ : Sched) (η : List Sched),
        (m'.visited ρ).Perm (m'.entries.map (fun e => e.2)) ∧
        (m'.Bytes hp date ρ η).1
          = m'.envelope date ++ multipartHeader ++ bodyPart m'
            ++ (fragments (m'.visited ρ) η hp).flatten ++ lit "--") ∧
      (∀ order : List Attachment, order.Perm (m'.entries.map (fun e => e.2)) →
        ∃ ρ, m'.visited ρ = order) ∧
      m'.visited [] = m'.entries.map (fun e => e.2) := by
  obtain ⟨m', hadd, hent⟩ := addAll_entries cs m mp hm hok hd hnew
  have hn : m'.numAttachments > 0 := by
    rw [numAttachments_of_entries m' _ hent, List.length_append, List.length_map]
    have := List.length_pos.mpr hk
    omega
  refine ⟨m', hadd, hent, ?_, ?_, ?_⟩
  · intro hp date ρ η
    refine ⟨visited_perm m' ρ, ?_⟩
    rw [Bytes_fst, if_pos hn, writeParts_fragments]
    simp only [List.append_assoc]
  · intro order horder
    obtain ⟨ρ, hρ⟩ := rangeOrder_surjective _ order horder
    exact ⟨ρ, by rw [visited_eq, hρ]⟩
  · rw [visited_eq, rangeOrder_nil]

/-- C15, witness of the amended claim: a.txt and then b.txt added to the test
message. -/
theorem parts_in_visiting_order_witness :
    testMessage.Attachments = some emptyMap ∧ orderedAdds ≠ [] ∧
    (∀ c ∈ orderedAdds, c.reader.err = none) ∧
    (orderedAdds.map (fun c => c.filename)).Nodup ∧
    ∃ m', testMessage.addAll orderedAdds = some m' ∧
      m'.visited [] = m'.entries.map (fun e => e.2) := by
  obtain ⟨m', h1, _, _, _, h5⟩ := parts_in_visiting_order testMessage emptyMap orderedAdds rfl
    (by decide) (by decide) (by decide) (by decide)
  exact ⟨rfl, by decide, by decide, by decide, m', h1, h5⟩


end Email

